import Mathlib

/-!
Verification development for the render-system scheduler and GPU submission
orchestrator.  The definitions below are shallow embeddings of the Rust source:

* src/src/ecs/pass.rs       -- graph clustering and schedule build
* src/src/future/exec.rs    -- GPU future recording loop
* src/core/src/resources/buffer.rs -- buffer factory and copy futures

Graph nodes (bevy NodeId values) are embedded as natural numbers.
-/

namespace AsyncAsh

/-- A directed graph given by its node list and edge list, embedding
bevy's DiGraph.  Node and edge iteration order is the list order. -/
structure DiGraph where
  nodes : List Nat
  edges : List (Nat × Nat)
deriving DecidableEq

namespace DiGraph

/-- Well-formedness that bevy's DiGraph maintains: no duplicate nodes or
edges, and edge endpoints are nodes of the graph. -/
def WF (g : DiGraph) : Prop :=
  g.nodes.Nodup ∧ g.edges.Nodup ∧ ∀ e ∈ g.edges, e.1 ∈ g.nodes ∧ e.2 ∈ g.nodes

instance (g : DiGraph) : Decidable g.WF := by
  unfold WF; infer_instance

/-- neighbors_directed(node, Direction::Incoming). -/
def inNeighbors (g : DiGraph) (n : Nat) : List Nat :=
  (g.edges.filter (fun e => e.2 = n)).map Prod.fst

/-- neighbors_directed(node, Direction::Outgoing). -/
def outNeighbors (g : DiGraph) (n : Nat) : List Nat :=
  (g.edges.filter (fun e => e.1 = n)).map Prod.snd

/-- add_edge: inserts the edge if it is not already present (set semantics,
as in bevy's graph); endpoints are added as nodes if missing. -/
def addEdge (g : DiGraph) (a b : Nat) : DiGraph :=
  { nodes := (if a ∈ g.nodes then g.nodes else g.nodes ++ [a]).append
      (if b ∈ (if a ∈ g.nodes then g.nodes else g.nodes ++ [a]) then []
        else [b]),
    edges := if (a, b) ∈ g.edges then g.edges else g.edges ++ [(a, b)] }

/-- remove_node: removes the node and all incident edges. -/
def removeNode (g : DiGraph) (n : Nat) : DiGraph :=
  { nodes := g.nodes.filter (fun m => m ≠ n),
    edges := g.edges.filter (fun e => e.1 ≠ n ∧ e.2 ≠ n) }

/-- One edge step in the graph. -/
def stepRel (g : DiGraph) (a b : Nat) : Prop := (a, b) ∈ g.edges

instance (g : DiGraph) (a b : Nat) : Decidable (stepRel g a b) := by
  unfold stepRel; infer_instance

/-- Reachability along directed edges (reflexive-transitive). -/
def Reach (g : DiGraph) (a b : Nat) : Prop :=
  Relation.ReflTransGen (stepRel g) a b

/-- Length-indexed reachability: a walk of exactly n edges. -/
inductive ReachN (g : DiGraph) : Nat → Nat → Nat → Prop
  | refl (a : Nat) : ReachN g 0 a a
  | head {n a b c : Nat} : stepRel g a b → ReachN g n b c → ReachN g (n + 1) a c

theorem reachN_of_reach {g : DiGraph} {a b : Nat} (h : Reach g a b) :
    ∃ n, ReachN g n a b := by
  induction h with
  | refl => exact ⟨0, ReachN.refl a⟩
  | tail _ hstep ih =>
    obtain ⟨n, hn⟩ := ih
    refine ⟨n + 1, ?_⟩
    clear * - hn hstep
    induction hn with
    | refl => exact ReachN.head hstep (ReachN.refl _)
    | head hs _ ih => exact ReachN.head hs (ih hstep)

theorem reach_of_reachN {g : DiGraph} {n a b : Nat} (h : ReachN g n a b) :
    Reach g a b := by
  induction h with
  | refl => exact Relation.ReflTransGen.refl
  | head hs _ ih => exact Relation.ReflTransGen.head hs ih

/-- A graph is acyclic when no node reaches itself through at least one edge. -/
def Acyclic (g : DiGraph) : Prop :=
  ∀ v : Nat, ¬ Relation.TransGen (stepRel g) v v

/-- If some rank function strictly increases along every edge then the graph
is acyclic. -/
theorem acyclic_of_rank (g : DiGraph) (rank : Nat → Nat)
    (h : ∀ e ∈ g.edges, rank e.1 < rank e.2) : Acyclic g := by
  intro v hv
  have mono : ∀ a b : Nat, Relation.TransGen (stepRel g) a b → rank a < rank b := by
    intro a b hab
    induction hab with
    | single hs => exact h _ hs
    | tail _ hs ih => exact lt_trans ih (h _ hs)
  exact lt_irrefl _ (mono v v hv)

end DiGraph

open DiGraph

/-! ## graph_remove_node_with_transitive_dependency (src/src/ecs/pass.rs 314-327) -/

/-- For each (parent, child) pair of the removed node, add a direct edge,
then remove the node; mirrors the source function line by line. -/
def graph_remove_node_with_transitive_dependency (graph : DiGraph) (node : Nat) :
    DiGraph :=
  let parents := graph.inNeighbors node
  let children := graph.outNeighbors node
  let graph := parents.foldl
    (fun g p => children.foldl (fun g c => g.addEdge p c) g) graph
  graph.removeNode node

/-- The pruning pass of RenderSystemsPass::build: every non-render node is
removed with transitive dependency patching, one after the other. -/
def pruneNodes (g : DiGraph) (ns : List Nat) : DiGraph :=
  ns.foldl graph_remove_node_with_transitive_dependency g

theorem addEdge_edges_mem (g : DiGraph) (a b x y : Nat) :
    (x, y) ∈ (g.addEdge a b).edges ↔ (x, y) ∈ g.edges ∨ (x = a ∧ y = b) := by
  simp only [addEdge]
  by_cases h : (a, b) ∈ g.edges
  · simp only [if_pos h]
    constructor
    · intro hx; exact Or.inl hx
    · rintro (hx | ⟨rfl, rfl⟩)
      · exact hx
      · exact h
  · simp only [if_neg h, List.mem_append, List.mem_singleton, Prod.mk.injEq]

theorem foldl_addEdge_mem (l : List Nat) (p : Nat) (g : DiGraph) (x y : Nat) :
    (x, y) ∈ (l.foldl (fun g c => g.addEdge p c) g).edges ↔
      (x, y) ∈ g.edges ∨ (x = p ∧ y ∈ l) := by
  induction l generalizing g with
  | nil => simp
  | cons c rest ih =>
    simp only [List.foldl_cons, ih, addEdge_edges_mem, List.mem_cons]
    constructor
    · rintro ((hx | ⟨rfl, rfl⟩) | ⟨rfl, hy⟩)
      · exact Or.inl hx
      · exact Or.inr ⟨rfl, Or.inl rfl⟩
      · exact Or.inr ⟨rfl, Or.inr hy⟩
    · rintro (hx | ⟨rfl, (rfl | hy)⟩)
      · exact Or.inl (Or.inl hx)
      · exact Or.inl (Or.inr ⟨rfl, rfl⟩)
      · exact Or.inr ⟨rfl, hy⟩

theorem foldl2_addEdge_mem (ps cs : List Nat) (g : DiGraph) (x y : Nat) :
    (x, y) ∈ (ps.foldl (fun g p => cs.foldl (fun g c => g.addEdge p c) g) g).edges ↔
      (x, y) ∈ g.edges ∨ (x ∈ ps ∧ y ∈ cs) := by
  induction ps generalizing g with
  | nil => simp
  | cons p rest ih =>
    simp only [List.foldl_cons, ih, foldl_addEdge_mem, List.mem_cons]
    constructor
    · rintro ((hx | ⟨rfl, hy⟩) | ⟨hx, hy⟩)
      · exact Or.inl hx
      · exact Or.inr ⟨Or.inl rfl, hy⟩
      · exact Or.inr ⟨Or.inr hx, hy⟩
    · rintro (hx | ⟨(rfl | hx), hy⟩)
      · exact Or.inl (Or.inl hx)
      · exact Or.inl (Or.inr ⟨rfl, hy⟩)
      · exact Or.inr ⟨hx, hy⟩

theorem mem_inNeighbors (g : DiGraph) (p n : Nat) :
    p ∈ g.inNeighbors n ↔ (p, n) ∈ g.edges := by
  simp only [inNeighbors, List.mem_map, List.mem_filter]
  constructor
  · rintro ⟨⟨a, b⟩, ⟨hm, hb⟩, rfl⟩
    simp only [decide_eq_true_eq] at hb
    subst hb; exact hm
  · intro hm
    exact ⟨(p, n), ⟨hm, by simp⟩, rfl⟩

theorem mem_outNeighbors (g : DiGraph) (n c : Nat) :
    c ∈ g.outNeighbors n ↔ (n, c) ∈ g.edges := by
  simp only [outNeighbors, List.mem_map, List.mem_filter]
  constructor
  · rintro ⟨⟨a, b⟩, ⟨hm, ha⟩, rfl⟩
    simp only [decide_eq_true_eq] at ha
    subst ha; exact hm
  · intro hm
    exact ⟨(n, c), ⟨hm, by simp⟩, rfl⟩

/-- Characterisation of the edges after one transitive-dependency removal. -/
theorem remove_tdep_edges_mem (g : DiGraph) (node x y : Nat) :
    (x, y) ∈ (graph_remove_node_with_transitive_dependency g node).edges ↔
      x ≠ node ∧ y ≠ node ∧
        ((x, y) ∈ g.edges ∨ ((x, node) ∈ g.edges ∧ (node, y) ∈ g.edges)) := by
  simp only [graph_remove_node_with_transitive_dependency, removeNode,
    List.mem_filter, foldl2_addEdge_mem, mem_inNeighbors, mem_outNeighbors,
    decide_eq_true_eq, Bool.and_eq_true]
  tauto

theorem reach_of_removed_step {g : DiGraph} {node x y : Nat}
    (h : stepRel (graph_remove_node_with_transitive_dependency g node) x y) :
    Reach g x y := by
  rw [stepRel, remove_tdep_edges_mem] at h
  obtain ⟨-, -, (he | ⟨h1, h2⟩)⟩ := h
  · exact Relation.ReflTransGen.single he
  · exact Relation.ReflTransGen.head h1 (Relation.ReflTransGen.single h2)

/-- Forward direction: reachability in the pruned graph implies reachability
in the original graph. -/
theorem reach_remove_tdep_mp {g : DiGraph} {node u v : Nat}
    (h : Reach (graph_remove_node_with_transitive_dependency g node) u v) :
    Reach g u v := by
  induction h with
  | refl => exact Relation.ReflTransGen.refl
  | tail _ hstep ih => exact Relation.ReflTransGen.trans ih (reach_of_removed_step hstep)

/-- First exit from the removed node: a walk from node to v with v different
from node passes through a direct successor different from node. -/
theorem reachN_exit {g : DiGraph} {node v : Nat} :
    ∀ m, ReachN g m node v → v ≠ node →
      ∃ k c, k < m ∧ c ≠ node ∧ (node, c) ∈ g.edges ∧ ReachN g k c v := by
  intro m
  induction m using Nat.strong_induction_on with
  | _ m ih =>
    intro hwalk hv
    cases hwalk with
    | refl => exact absurd rfl hv
    | head hs rest =>
      rename_i n b
      by_cases hb : b = node
      · subst hb
        obtain ⟨k, c, hk, hc, he, hr⟩ := ih n (Nat.lt_succ_self n) rest hv
        exact ⟨k, c, Nat.lt_trans hk (Nat.lt_succ_self n), hc, he, hr⟩
      · exact ⟨n, b, Nat.lt_succ_self n, hb, hs, rest⟩

/-- Backward direction, by strong induction on the walk length. -/
theorem reach_remove_tdep_mpr {g : DiGraph} {node v : Nat} (hv : v ≠ node) :
    ∀ n u, ReachN g n u v → u ≠ node →
      Reach (graph_remove_node_with_transitive_dependency g node) u v := by
  intro n
  induction n using Nat.strong_induction_on with
  | _ n ih =>
    intro u hwalk hu
    cases hwalk with
    | refl => exact Relation.ReflTransGen.refl
    | head hs rest =>
      rename_i m b
      by_cases hb : b = node
      · obtain ⟨k, c, hk, hc, he, hr⟩ := reachN_exit m (hb ▸ rest) hv
        have hedge : stepRel (graph_remove_node_with_transitive_dependency g node) u c := by
          rw [stepRel, remove_tdep_edges_mem]
          exact ⟨hu, hc, Or.inr ⟨hb ▸ hs, he⟩⟩
        have htail := ih k (Nat.lt_succ_of_lt hk) c hr hc
        exact Relation.ReflTransGen.head hedge htail
      · have hedge : stepRel (graph_remove_node_with_transitive_dependency g node) u b := by
          rw [stepRel, remove_tdep_edges_mem]
          exact ⟨hu, hb, Or.inl hs⟩
        exact Relation.ReflTransGen.head hedge (ih m (Nat.lt_succ_self m) b rest hb)

/-- Single-node removal preserves reachability between surviving nodes. -/
theorem reach_remove_tdep_iff (g : DiGraph) (node u v : Nat)
    (hu : u ≠ node) (hv : v ≠ node) :
    Reach (graph_remove_node_with_transitive_dependency g node) u v ↔ Reach g u v := by
  constructor
  · exact reach_remove_tdep_mp
  · intro h
    obtain ⟨n, hn⟩ := reachN_of_reach h
    exact reach_remove_tdep_mpr hv n u hn hu

/-- Claim C10: pruning non-render nodes through
graph_remove_node_with_transitive_dependency preserves reachability between
all remaining nodes: for u and v outside the pruned set, v is reachable from
u in the pruned graph exactly when it was reachable in the original graph. -/
theorem pruneNodes_reach_iff (g : DiGraph) (ns : List Nat) (u v : Nat)
    (hu : u ∉ ns) (hv : v ∉ ns) :
    Reach (pruneNodes g ns) u v ↔ Reach g u v := by
  induction ns generalizing g with
  | nil => simp [pruneNodes]
  | cons n rest ih =>
    have hu1 : u ≠ n := fun h => hu (h ▸ List.mem_cons_self n rest)
    have hv1 : v ≠ n := fun h => hv (h ▸ List.mem_cons_self n rest)
    have hu2 : u ∉ rest := fun h => hu (List.mem_cons_of_mem n h)
    have hv2 : v ∉ rest := fun h => hv (List.mem_cons_of_mem n h)
    calc Reach (pruneNodes g (n :: rest)) u v
        ↔ Reach (graph_remove_node_with_transitive_dependency g n) u v :=
          ih (graph_remove_node_with_transitive_dependency g n) hu2 hv2
      _ ↔ Reach g u v := reach_remove_tdep_iff g n u v hu1 hv1

/-- Witness for C10 at a concrete graph: pruning node 2 out of the chain
0 -> 2 -> 3 preserves reachability from 0 to 3. -/
theorem pruneNodes_reach_iff_witness :
    (0 ∉ [2] ∧ 3 ∉ [2]) ∧
      (Reach (pruneNodes ⟨[0, 2, 3], [(0, 2), (2, 3)]⟩ [2]) 0 3 ↔
        Reach (⟨[0, 2, 3], [(0, 2), (2, 3)]⟩ : DiGraph) 0 3) :=
  ⟨by decide, pruneNodes_reach_iff ⟨[0, 2, 3], [(0, 2), (2, 3)]⟩ [2] 0 3
    (by decide) (by decide)⟩

/-! ## graph_clustering (src/src/ecs/pass.rs 329-507)

The algorithm state is embedded with the node heap as a list whose head is
the next node popped (Vec push/pop at the end), current_graph as the input
graph minus the set of removed nodes (remove_node happens exactly when a
node is emitted), and the colour micro graph (tiny_graph) as an edge list
with set semantics.  The while loop is driven by fuel. -/

structure GraphClusteringNodeInfo where
  color : Nat
  is_standalone : Bool
deriving DecidableEq

structure ClusteredNode where
  info : GraphClusteringNodeInfo
  nodes : List Nat
deriving DecidableEq

abbrev TinyEdges := List (GraphClusteringNodeInfo × GraphClusteringNodeInfo)

/-- One relaxation pass over the micro-graph edges, growing a reachable set. -/
def expandOnce (edges : TinyEdges) (s : List GraphClusteringNodeInfo) :
    List GraphClusteringNodeInfo :=
  edges.foldl (fun acc e => if e.1 ∈ acc ∧ e.2 ∉ acc then acc ++ [e.2] else acc) s

/-- Iterated relaxation; edges.length passes cover every path. -/
def reachClosure (edges : TinyEdges) :
    Nat → List GraphClusteringNodeInfo → List GraphClusteringNodeInfo
  | 0, s => s
  | n + 1, s => reachClosure edges n (expandOnce edges s)

/-- Embeds the Dfs walk over tiny_graph: is b reachable from a (the start
node itself included, as Dfs yields its start first)? -/
def hasPath (edges : TinyEdges) (a b : GraphClusteringNodeInfo) : Bool :=
  b ∈ reachClosure edges edges.length [a]

/-- DiGraphMap::add_edge: set semantics. -/
def addTinyEdge (t : TinyEdges) (a b : GraphClusteringNodeInfo) : TinyEdges :=
  if (a, b) ∈ t then t else t ++ [(a, b)]

/-- The mutable state of the clustering loop. -/
structure ClusterState where
  heap : List Nat
  heapNextStage : List Nat
  stageIndex : Nat
  nodeStageIndexes : List (Nat × Nat)
  cmdOpColors : List (List Nat × List (List Nat))
  queueOpColors : List (Option Nat × List Nat)
  tinyGraph : TinyEdges
  removed : List Nat
deriving DecidableEq

/-- The defer decision for the popped node: its colour already has a queued
standalone op in this stage, or some parent with a different info is
reachable from this info in the colour micro-graph (so adding the edge
would close a cycle). -/
def shouldDeferNode (g : DiGraph) (get_node_info : Nat → GraphClusteringNodeInfo)
    (s : ClusterState) (node : Nat) : Bool :=
  let node_info := get_node_info node
  (node_info.is_standalone &&
      ((s.queueOpColors.getD node_info.color (none, [])).1).isSome)
    || (g.inNeighbors node).any (fun parent =>
        let parent_info := get_node_info parent
        decide (parent_info ≠ node_info) &&
          hasPath s.tinyGraph node_info parent_info)

/-- heap_next_stage.push(node). -/
def deferNode (s : ClusterState) (node : Nat) (heapRest : List Nat) :
    ClusterState :=
  { s with heap := heapRest, heapNextStage := node :: s.heapNextStage }

/-- Children of the emitted node in the current graph (the input graph
minus removed nodes) whose only remaining parent is the emitted node; they
enter the heap when the node is removed. -/
def readyChildren (g : DiGraph) (s : ClusterState) (node : Nat) : List Nat :=
  (g.outNeighbors node).filter (fun child =>
    decide (child ∉ s.removed) &&
      decide (((g.inNeighbors child).filter
        (fun p => p ∉ s.removed)).length = 1))

/-- Emission of the popped node: stamp its stage index, place it into the
standalone slot or the open command buffer of its colour, add micro-graph
edges for same-stage cross-colour parents, push children left with a single
remaining parent, and remove the node from the current graph. -/
def emitNode (g : DiGraph) (get_node_info : Nat → GraphClusteringNodeInfo)
    (s : ClusterState) (node : Nat) (heapRest : List Nat) : ClusterState :=
  let node_info := get_node_info node
  let stageIdxs := (node, s.stageIndex) :: s.nodeStageIndexes
  let queueOps :=
    if node_info.is_standalone then
      s.queueOpColors.set node_info.color
        (some node, (s.queueOpColors.getD node_info.color (none, [])).2)
    else s.queueOpColors
  let cmdOps :=
    if node_info.is_standalone then s.cmdOpColors
    else
      s.cmdOpColors.set node_info.color
        ((s.cmdOpColors.getD node_info.color ([], [])).1 ++ [node],
          (s.cmdOpColors.getD node_info.color ([], [])).2)
  let tiny := (g.inNeighbors node).foldl
    (fun t parent =>
      let parent_info := get_node_info parent
      if parent_info.color ≠ node_info.color ∧
          stageIdxs.lookup parent = some s.stageIndex then
        addTinyEdge t parent_info node_info
      else t) s.tinyGraph
  { s with
    heap := (readyChildren g s node).foldl (fun h c => c :: h) heapRest,
    nodeStageIndexes := stageIdxs,
    queueOpColors := queueOps,
    cmdOpColors := cmdOps,
    tinyGraph := tiny,
    removed := node :: s.removed }

/-- End-of-iteration check: when the heap has emptied, flush every colour
into finished stages, clear the micro-graph and swap in the deferred
queue. -/
def flushStage (s : ClusterState) : ClusterState :=
  if s.heap.isEmpty then
    { s with
      cmdOpColors := s.cmdOpColors.map (fun bs =>
        if bs.1.isEmpty then bs else ([], bs.2 ++ [bs.1])),
      queueOpColors := s.queueOpColors.map (fun qs =>
        match qs.1 with
        | some a => (none, qs.2 ++ [a])
        | none => qs),
      stageIndex := s.stageIndex + 1,
      tinyGraph := [],
      heap := s.heapNextStage,
      heapNextStage := [] }
  else s

/-- One iteration of the while let Some(node) = heap.pop() loop. -/
def clusterStep (g : DiGraph) (get_node_info : Nat → GraphClusteringNodeInfo)
    (s : ClusterState) : ClusterState :=
  match s.heap with
  | [] => s
  | node :: heapRest =>
    flushStage
      (if shouldDeferNode g get_node_info s node then deferNode s node heapRest
        else emitNode g get_node_info s node heapRest)

/-- The while loop, driven by fuel; it exits when the heap is empty. -/
def clusterLoop (g : DiGraph) (get_node_info : Nat → GraphClusteringNodeInfo) :
    Nat → ClusterState → ClusterState
  | 0, s => s
  | fuel + 1, s =>
    if s.heap.isEmpty then s
    else clusterLoop g get_node_info fuel (clusterStep g get_node_info s)

/-- The state before the loop: the heap holds all nodes without incoming
edges, popped in reverse node-list order. -/
def initState (g : DiGraph) (num_colors : Nat) : ClusterState :=
  { heap := (g.nodes.filter (fun n => (g.inNeighbors n).isEmpty)).reverse,
    heapNextStage := [],
    stageIndex := 0,
    nodeStageIndexes := [],
    cmdOpColors := List.replicate num_colors ([], []),
    queueOpColors := List.replicate num_colors (none, []),
    tinyGraph := [],
    removed := [] }

/-- Flush of one colour's standalone slot and the list of its finished
standalone stages. -/
def standaloneStages (q : Option Nat × List Nat) : List Nat :=
  match q.1 with
  | some a => q.2 ++ [a]
  | none => q.2

/-- Flush of one colour's open command buffer and its finished stages. -/
def cmdStages (c : List Nat × List (List Nat)) : List (List Nat) :=
  if c.1.isEmpty then c.2 else c.2 ++ [c.1]

/-- The clustered node list: standalone clusters first (per colour, per
stage), then the command clusters (per colour, per stage), as in the two
flush loops of the source. -/
def assembleClusters (get_node_info : Nat → GraphClusteringNodeInfo)
    (s : ClusterState) : List ClusteredNode :=
  ((s.queueOpColors.map (fun q => (standaloneStages q).map
      (fun a => ClusteredNode.mk (get_node_info a) [a]))).flatten)
  ++ ((s.cmdOpColors.map (fun c => (cmdStages c).map
      (fun stage => ClusteredNode.mk (get_node_info (stage.headD 0)) stage))).flatten)

/-- node_to_clustered_nodes: every member of cluster i maps to i. -/
def clusterAssignment (clusters : List ClusteredNode) : List (Nat × Nat) :=
  (clusters.enum.map (fun ci => ci.2.nodes.map (fun n => (n, ci.1)))).flatten

/-- Lookup into node_to_clustered_nodes (the source unwraps; every emitted
node has exactly one entry). -/
def clusterOfD (asg : List (Nat × Nat)) (n : Nat) : Nat :=
  (asg.lookup n).getD 0

/-- One step of the clustered-graph connectivity loop over one input edge:
when the endpoints map to different clusters, add the cluster edge (set
semantics, as DiGraphMap::add_edge). -/
def connStep (asg : List (Nat × Nat)) (acc : List (Nat × Nat)) (e : Nat × Nat) :
    List (Nat × Nat) :=
  let fc := clusterOfD asg e.1
  let tc := clusterOfD asg e.2
  if fc ≠ tc ∧ (fc, tc) ∉ acc then acc ++ [(fc, tc)] else acc

/-- The clustered graph connectivity loop: for every edge of the input
graph whose endpoints map to different clusters, add the cluster edge. -/
def clusterConnectivity (asg : List (Nat × Nat)) (g : DiGraph) :
    List (Nat × Nat) :=
  g.edges.foldl (connStep asg) []

structure ClusteringOutput where
  clusterEdges : List (Nat × Nat)
  clusters : List ClusteredNode
  assignment : List (Nat × Nat)
deriving DecidableEq

/-- graph_clustering: returns the clustered graph (as its edge list), the
clustered node info list and the node-to-cluster assignment.  fuel drives
the embedded while loop. -/
def graph_clustering (render_graph : DiGraph) (num_colors : Nat)
    (get_node_info : Nat → GraphClusteringNodeInfo) (fuel : Nat) :
    ClusteringOutput :=
  let sFinal := clusterLoop render_graph get_node_info fuel
    (initState render_graph num_colors)
  let clusters := assembleClusters get_node_info sFinal
  let asg := clusterAssignment clusters
  { clusterEdges := clusterConnectivity asg render_graph,
    clusters := clusters,
    assignment := asg }

/-- Acyclicity of the produced cluster graph. -/
def ClusterGraphAcyclic (out : ClusteringOutput) : Prop :=
  ∀ v : Nat, ¬ Relation.TransGen (fun a b => (a, b) ∈ out.clusterEdges) v v

/-! ## Claim C1: acyclicity of the cluster graph (code bug exhibit)

Three systems on a single queue (colour 0): node 0 non-standalone, node 1
standalone, node 2 non-standalone, with dependency edges 0 -> 1 -> 2.  All
three are emitted in layer 0: nodes 0 and 2 join the same command cluster
while node 1 becomes a standalone cluster, because the defer check records
edges in the colour micro-graph only between different colours.  The
resulting cluster graph has the two edges cluster{0,2} -> cluster{1} and
cluster{1} -> cluster{0,2}, a directed cycle, on which the subsequent
toposort(...).unwrap() of RenderSystemsPass::build panics. -/

def c1Graph : DiGraph := ⟨[0, 1, 2], [(0, 1), (1, 2)]⟩

def c1Info : Nat → GraphClusteringNodeInfo := fun n =>
  if n = 1 then ⟨0, true⟩ else ⟨0, false⟩

/-- Claim C1, evaluated at the failing input: the input dependency graph is
acyclic, yet graph_clustering returns a cluster graph with a directed
cycle. -/
theorem clustering_cycle_code_bug :
    Acyclic c1Graph ∧
      ¬ ClusterGraphAcyclic (graph_clustering c1Graph 1 c1Info 10) := by
  constructor
  · exact acyclic_of_rank c1Graph id (by decide)
  · intro h
    apply h 0
    have h01 : (0, 1) ∈ (graph_clustering c1Graph 1 c1Info 10).clusterEdges := by
      decide
    have h10 : (1, 0) ∈ (graph_clustering c1Graph 1 c1Info 10).clusterEdges := by
      decide
    exact Relation.TransGen.head h01 (Relation.TransGen.single h10)

/-! ## Claim C2: preservation of cross-cluster edges -/

theorem mem_connStep_mono (asg : List (Nat × Nat)) (acc : List (Nat × Nat))
    (e x : Nat × Nat) (hx : x ∈ acc) : x ∈ connStep asg acc e := by
  dsimp only [connStep]
  split
  · exact List.mem_append_left _ hx
  · exact hx

theorem mem_foldl_connStep_mono (asg : List (Nat × Nat))
    (es : List (Nat × Nat)) (acc : List (Nat × Nat)) (x : Nat × Nat)
    (hx : x ∈ acc) : x ∈ es.foldl (connStep asg) acc := by
  induction es generalizing acc with
  | nil => exact hx
  | cons e rest ih => exact ih _ (mem_connStep_mono asg acc e x hx)

theorem mem_foldl_connStep (asg : List (Nat × Nat)) (es : List (Nat × Nat))
    (acc : List (Nat × Nat)) (u v : Nat) (he : (u, v) ∈ es)
    (hne : clusterOfD asg u ≠ clusterOfD asg v) :
    (clusterOfD asg u, clusterOfD asg v) ∈ es.foldl (connStep asg) acc := by
  induction es generalizing acc with
  | nil => cases he
  | cons e rest ih =>
    rw [List.foldl_cons]
    rcases List.mem_cons.mp he with heq | hrest
    · rw [← heq]
      apply mem_foldl_connStep_mono
      dsimp only [connStep]
      split
      · exact List.mem_append_right _ (List.mem_singleton.mpr rfl)
      · rename_i hcond
        simp only [not_and, not_not] at hcond
        exact hcond hne
    · exact ih _ hrest

/-- Claim C2: for every edge (u, v) of the input render graph whose
endpoints are assigned to different clusters, the produced cluster graph
contains the edge cluster(u) -> cluster(v). -/
theorem cluster_edge_preserved (render_graph : DiGraph) (num_colors fuel : Nat)
    (get_node_info : Nat → GraphClusteringNodeInfo) (u v : Nat)
    (he : (u, v) ∈ render_graph.edges)
    (hne :
      clusterOfD (graph_clustering render_graph num_colors get_node_info fuel).assignment u ≠
        clusterOfD (graph_clustering render_graph num_colors get_node_info fuel).assignment v) :
    (clusterOfD (graph_clustering render_graph num_colors get_node_info fuel).assignment u,
      clusterOfD (graph_clustering render_graph num_colors get_node_info fuel).assignment v) ∈
      (graph_clustering render_graph num_colors get_node_info fuel).clusterEdges := by
  simp only [graph_clustering, clusterConnectivity] at hne ⊢
  exact mem_foldl_connStep _ _ _ u v he hne

/-- Witness for C2: a two-colour chain 0 -> 1 lands in two different
clusters and the cluster edge is present. -/
theorem cluster_edge_preserved_witness :
    ((0, 1) ∈ (⟨[0, 1], [(0, 1)]⟩ : DiGraph).edges ∧
      clusterOfD (graph_clustering ⟨[0, 1], [(0, 1)]⟩ 2 (fun n =>
          if n = 0 then ⟨0, false⟩ else ⟨1, false⟩) 10).assignment 0 ≠
        clusterOfD (graph_clustering ⟨[0, 1], [(0, 1)]⟩ 2 (fun n =>
          if n = 0 then ⟨0, false⟩ else ⟨1, false⟩) 10).assignment 1) ∧
      (clusterOfD (graph_clustering ⟨[0, 1], [(0, 1)]⟩ 2 (fun n =>
          if n = 0 then ⟨0, false⟩ else ⟨1, false⟩) 10).assignment 0,
        clusterOfD (graph_clustering ⟨[0, 1], [(0, 1)]⟩ 2 (fun n =>
          if n = 0 then ⟨0, false⟩ else ⟨1, false⟩) 10).assignment 1) ∈
        (graph_clustering ⟨[0, 1], [(0, 1)]⟩ 2 (fun n =>
          if n = 0 then ⟨0, false⟩ else ⟨1, false⟩) 10).clusterEdges :=
  ⟨⟨by decide, by decide⟩,
    cluster_edge_preserved ⟨[0, 1], [(0, 1)]⟩ 2 10
      (fun n => if n = 0 then ⟨0, false⟩ else ⟨1, false⟩) 0 1
      (by decide) (by decide)⟩

/-! ## Loop invariants of the clustering algorithm -/

theorem foldl_cons_eq_reverse_append (l acc : List Nat) :
    l.foldl (fun h c => c :: h) acc = l.reverse ++ acc := by
  induction l generalizing acc with
  | nil => rfl
  | cons a t ih => simp [ih]

theorem inNeighbors_nodup (g : DiGraph) (h : g.edges.Nodup) (n : Nat) :
    (g.inNeighbors n).Nodup := by
  apply List.Nodup.map_on
  · intro x hx y hy hxy
    have hx2 := (List.mem_filter.mp hx).2
    have hy2 := (List.mem_filter.mp hy).2
    simp only [decide_eq_true_eq] at hx2 hy2
    cases x; cases y
    simp only [Prod.mk.injEq]
    exact ⟨hxy, hx2.trans hy2.symm⟩
  · exact h.filter _

theorem outNeighbors_nodup (g : DiGraph) (h : g.edges.Nodup) (n : Nat) :
    (g.outNeighbors n).Nodup := by
  apply List.Nodup.map_on
  · intro x hx y hy hxy
    have hx2 := (List.mem_filter.mp hx).2
    have hy2 := (List.mem_filter.mp hy).2
    simp only [decide_eq_true_eq] at hx2 hy2
    cases x; cases y
    simp only [Prod.mk.injEq]
    exact ⟨hx2.trans hy2.symm, hxy⟩
  · exact h.filter _

theorem nodup_all_eq_singleton {l : List Nat} {a : Nat} (hnd : l.Nodup)
    (hmem : a ∈ l) (hall : ∀ x ∈ l, x = a) : l = [a] := by
  cases l with
  | nil => cases hmem
  | cons b t =>
    have hb : b = a := hall b (List.mem_cons_self b t)
    subst hb
    have ht : t = [] := by
      cases t with
      | nil => rfl
      | cons c u =>
        have hc : c = b := hall c (List.mem_cons_of_mem b (List.mem_cons_self c u))
        subst hc
        exact absurd (List.mem_cons_self c u) (List.nodup_cons.mp hnd).1
    rw [ht]

/-- The invariant of the clustering loop that is independent of the
end-of-iteration flush. -/
structure PreInv (g : DiGraph) (s : ClusterState) : Prop where
  removed_nodup : s.removed.Nodup
  removed_sub : ∀ n ∈ s.removed, n ∈ g.nodes
  removed_closed : ∀ v ∈ s.removed, ∀ p ∈ g.inNeighbors v, p ∈ s.removed
  queue_nodup : (s.heap ++ s.heapNextStage).Nodup
  queue_sub : ∀ n ∈ s.heap ++ s.heapNextStage, n ∈ g.nodes
  queue_not_removed : ∀ n ∈ s.heap ++ s.heapNextStage, n ∉ s.removed
  queue_ready : ∀ n ∈ s.heap ++ s.heapNextStage, ∀ p ∈ g.inNeighbors n, p ∈ s.removed
  coverage : ∀ n ∈ g.nodes, n ∉ s.removed →
    (∀ p ∈ g.inNeighbors n, p ∈ s.removed) → n ∈ s.heap ∨ n ∈ s.heapNextStage

/-- The full between-iterations invariant. -/
def Inv (g : DiGraph) (s : ClusterState) : Prop :=
  PreInv g s ∧ (s.heap = [] → s.heapNextStage = [])

/-- PreInv only depends on the removed set and on the combined queue as a
set (with multiplicity). -/
theorem preInv_of_perm (g : DiGraph) (s s' : ClusterState)
    (hrem : s'.removed = s.removed)
    (hperm : (s'.heap ++ s'.heapNextStage).Perm (s.heap ++ s.heapNextStage))
    (h : PreInv g s) : PreInv g s' := by
  refine ⟨?_, ?_, ?_, ?_, ?_, ?_, ?_, ?_⟩
  · rw [hrem]; exact h.removed_nodup
  · rw [hrem]; exact h.removed_sub
  · rw [hrem]; exact h.removed_closed
  · exact hperm.nodup_iff.mpr h.queue_nodup
  · intro n hn; exact h.queue_sub n (hperm.mem_iff.mp hn)
  · intro n hn; rw [hrem]; exact h.queue_not_removed n (hperm.mem_iff.mp hn)
  · intro n hn; rw [hrem]; exact h.queue_ready n (hperm.mem_iff.mp hn)
  · intro n hn hnr hp
    rw [hrem] at hnr hp
    have := h.coverage n hn hnr hp
    have hmem : n ∈ s'.heap ++ s'.heapNextStage := by
      apply hperm.mem_iff.mpr
      rcases this with h1 | h1
      · exact List.mem_append_left _ h1
      · exact List.mem_append_right _ h1
    rcases List.mem_append.mp hmem with h1 | h1
    · exact Or.inl h1
    · exact Or.inr h1

theorem preInv_deferNode (g : DiGraph) (s : ClusterState) (node : Nat)
    (rest : List Nat) (h : PreInv g s) (hheap : s.heap = node :: rest) :
    PreInv g (deferNode s node rest) := by
  refine preInv_of_perm g s (deferNode s node rest) rfl ?_ h
  simp only [deferNode]
  rw [hheap]
  exact List.perm_middle

theorem flushStage_removed (s : ClusterState) :
    (flushStage s).removed = s.removed := by
  unfold flushStage; split <;> rfl

theorem preInv_flushStage (g : DiGraph) (s : ClusterState) (h : PreInv g s) :
    PreInv g (flushStage s) := by
  refine preInv_of_perm g s (flushStage s) (flushStage_removed s) ?_ h
  unfold flushStage
  split
  · rename_i hempty
    rw [List.isEmpty_iff] at hempty
    simp [hempty]
  · exact List.Perm.refl _

theorem flushStage_heap_empty (s : ClusterState) :
    (flushStage s).heap = [] → (flushStage s).heapNextStage = [] := by
  unfold flushStage
  split
  · intro; rfl
  · rename_i hne
    intro hempty
    exact absurd (by rw [hempty]; rfl) hne

theorem emitNode_heap (g : DiGraph) (i : Nat → GraphClusteringNodeInfo)
    (s : ClusterState) (node : Nat) (rest : List Nat) :
    (emitNode g i s node rest).heap = (readyChildren g s node).reverse ++ rest := by
  dsimp only [emitNode]
  exact foldl_cons_eq_reverse_append _ _

theorem emitNode_next (g : DiGraph) (i : Nat → GraphClusteringNodeInfo)
    (s : ClusterState) (node : Nat) (rest : List Nat) :
    (emitNode g i s node rest).heapNextStage = s.heapNextStage := rfl

theorem emitNode_removed (g : DiGraph) (i : Nat → GraphClusteringNodeInfo)
    (s : ClusterState) (node : Nat) (rest : List Nat) :
    (emitNode g i s node rest).removed = node :: s.removed := rfl

theorem mem_readyChildren {g : DiGraph} {s : ClusterState} {node c : Nat} :
    c ∈ readyChildren g s node ↔
      (node, c) ∈ g.edges ∧ c ∉ s.removed ∧
        ((g.inNeighbors c).filter (fun p => p ∉ s.removed)).length = 1 := by
  simp only [readyChildren, List.mem_filter, mem_outNeighbors,
    Bool.and_eq_true, decide_eq_true_eq]

theorem preInv_emitNode (g : DiGraph) (get_node_info : Nat → GraphClusteringNodeInfo)
    (s : ClusterState) (node : Nat) (rest : List Nat)
    (hWF : g.WF) (hacyc : Acyclic g) (h : PreInv g s)
    (hheap : s.heap = node :: rest) :
    PreInv g (emitNode g get_node_info s node rest) := by
  obtain ⟨hnodesND, hedgesND, hends⟩ := hWF
  have hnodeQ : node ∈ s.heap ++ s.heapNextStage := by
    rw [hheap]; exact List.mem_append_left _ (List.mem_cons_self _ _)
  have hnodeNodes : node ∈ g.nodes := h.queue_sub _ hnodeQ
  have hnodeNR : node ∉ s.removed := h.queue_not_removed _ hnodeQ
  have hnodeReady : ∀ p ∈ g.inNeighbors node, p ∈ s.removed := h.queue_ready _ hnodeQ
  have hQcons : s.heap ++ s.heapNextStage = node :: (rest ++ s.heapNextStage) := by
    rw [hheap, List.cons_append]
  have hrestnextND : (rest ++ s.heapNextStage).Nodup := by
    have := h.queue_nodup
    rw [hQcons] at this
    exact (List.nodup_cons.mp this).2
  have hnodeNotRN : node ∉ rest ++ s.heapNextStage := by
    have := h.queue_nodup
    rw [hQcons] at this
    exact (List.nodup_cons.mp this).1
  have hchild : ∀ c ∈ readyChildren g s node,
      c ∈ g.nodes ∧ c ∉ s.removed ∧ c ≠ node ∧ c ∉ rest ++ s.heapNextStage ∧
        (∀ p ∈ g.inNeighbors c, p ∈ node :: s.removed) := by
    intro c hc
    obtain ⟨hedge, hcnr, hlen⟩ := mem_readyChildren.mp hc
    have hcnode : c ∈ g.nodes := (hends _ hedge).2
    have hcneq : c ≠ node := by
      intro hEq
      subst hEq
      exact hacyc c (Relation.TransGen.single hedge)
    have hfilter_mem : node ∈ (g.inNeighbors c).filter (fun p => p ∉ s.removed) := by
      apply List.mem_filter.mpr
      exact ⟨(mem_inNeighbors g node c).mpr hedge, by simpa using hnodeNR⟩
    obtain ⟨a, ha⟩ := List.length_eq_one.mp hlen
    have hnode_a : node = a := by
      rw [ha] at hfilter_mem
      exact List.mem_singleton.mp hfilter_mem
    have hparents : ∀ p ∈ g.inNeighbors c, p ∈ node :: s.removed := by
      intro p hp
      by_cases hpr : p ∈ s.removed
      · exact List.mem_cons_of_mem _ hpr
      · have hpf : p ∈ (g.inNeighbors c).filter (fun q => q ∉ s.removed) :=
          List.mem_filter.mpr ⟨hp, by simpa using hpr⟩
        rw [ha] at hpf
        rw [List.mem_singleton.mp hpf, ← hnode_a]
        exact List.mem_cons_self _ _
    have hcq : c ∉ rest ++ s.heapNextStage := by
      intro hcmem
      have hcq2 : c ∈ s.heap ++ s.heapNextStage := by
        rw [hQcons]
        exact List.mem_cons_of_mem _ hcmem
      exact hnodeNR (h.queue_ready c hcq2 node ((mem_inNeighbors g node c).mpr hedge))
    exact ⟨hcnode, hcnr, hcneq, hcq, hparents⟩
  have hchildND : (readyChildren g s node).Nodup :=
    (outNeighbors_nodup g hedgesND node).filter _
  have hnewQ : (emitNode g get_node_info s node rest).heap ++
      (emitNode g get_node_info s node rest).heapNextStage =
      (readyChildren g s node).reverse ++ (rest ++ s.heapNextStage) := by
    rw [emitNode_heap, emitNode_next, List.append_assoc]
  refine ⟨?_, ?_, ?_, ?_, ?_, ?_, ?_, ?_⟩
  · rw [emitNode_removed]
    exact List.nodup_cons.mpr ⟨hnodeNR, h.removed_nodup⟩
  · rw [emitNode_removed]
    intro n hn
    rcases List.mem_cons.mp hn with rfl | hn
    · exact hnodeNodes
    · exact h.removed_sub n hn
  · rw [emitNode_removed]
    intro v hv p hp
    rcases List.mem_cons.mp hv with rfl | hv
    · exact List.mem_cons_of_mem _ (hnodeReady p hp)
    · exact List.mem_cons_of_mem _ (h.removed_closed v hv p hp)
  · rw [hnewQ]
    refine List.Nodup.append (List.nodup_reverse.mpr hchildND) hrestnextND ?_
    intro a haC haR
    rw [List.mem_reverse] at haC
    exact (hchild a haC).2.2.2.1 haR
  · rw [hnewQ]
    intro n hn
    rcases List.mem_append.mp hn with hn | hn
    · rw [List.mem_reverse] at hn
      exact (hchild n hn).1
    · apply h.queue_sub
      rw [hQcons]
      exact List.mem_cons_of_mem _ hn
  · rw [hnewQ, emitNode_removed]
    intro n hn hnR
    rcases List.mem_append.mp hn with hn1 | hn1
    · rw [List.mem_reverse] at hn1
      rcases List.mem_cons.mp hnR with hEq | hnR2
      · exact (hchild n hn1).2.2.1 hEq
      · exact (hchild n hn1).2.1 hnR2
    · rcases List.mem_cons.mp hnR with hEq | hnR2
      · exact hnodeNotRN (hEq ▸ hn1)
      · refine h.queue_not_removed n ?_ hnR2
        rw [hQcons]
        exact List.mem_cons_of_mem _ hn1
  · rw [hnewQ, emitNode_removed]
    intro n hn p hp
    rcases List.mem_append.mp hn with hn | hn
    · rw [List.mem_reverse] at hn
      exact (hchild n hn).2.2.2.2 p hp
    · apply List.mem_cons_of_mem
      refine h.queue_ready n ?_ p hp
      rw [hQcons]
      exact List.mem_cons_of_mem _ hn
  · rw [emitNode_heap, emitNode_next, emitNode_removed]
    intro n hn hnR hp
    have hneq : n ≠ node := fun hEq => hnR (hEq ▸ List.mem_cons_self _ _)
    have hnROld : n ∉ s.removed := fun hmem => hnR (List.mem_cons_of_mem _ hmem)
    by_cases hall : ∀ p ∈ g.inNeighbors n, p ∈ s.removed
    · rcases h.coverage n hn hnROld hall with hcov | hcov
      · rw [hheap] at hcov
        rcases List.mem_cons.mp hcov with rfl | hcov
        · exact absurd rfl hneq
        · exact Or.inl (List.mem_append_right _ hcov)
      · exact Or.inr hcov
    · push_neg at hall
      obtain ⟨q, hq, hqnr⟩ := hall
      have hqnode : q = node := by
        rcases List.mem_cons.mp (hp q hq) with rfl | hmem
        · rfl
        · exact absurd hmem hqnr
      subst hqnode
      have hedge : (q, n) ∈ g.edges := (mem_inNeighbors g q n).mp hq
      have hready : n ∈ readyChildren g s q := by
        apply mem_readyChildren.mpr
        refine ⟨hedge, hnROld, ?_⟩
        have hFnd : ((g.inNeighbors n).filter (fun p => p ∉ s.removed)).Nodup :=
          (inNeighbors_nodup g hedgesND n).filter _
        have hFq : q ∈ (g.inNeighbors n).filter (fun p => p ∉ s.removed) :=
          List.mem_filter.mpr ⟨hq, by simpa using hqnr⟩
        have hFall : ∀ x ∈ (g.inNeighbors n).filter (fun p => p ∉ s.removed), x = q := by
          intro x hx
          obtain ⟨hx1, hx2⟩ := List.mem_filter.mp hx
          simp only [decide_eq_true_eq] at hx2
          rcases List.mem_cons.mp (hp x hx1) with rfl | hmem
          · rfl
          · exact absurd hmem hx2
        rw [nodup_all_eq_singleton hFnd hFq hFall]
        rfl
      exact Or.inl (List.mem_append_left _ (List.mem_reverse.mpr hready))

/-- At the start of the loop all sources of the graph are in the heap. -/
theorem inv_initState (g : DiGraph) (num_colors : Nat) (hWF : g.WF) :
    Inv g (initState g num_colors) := by
  obtain ⟨hnodes, hedges, hends⟩ := hWF
  refine ⟨⟨?_, ?_, ?_, ?_, ?_, ?_, ?_, ?_⟩, ?_⟩
  · exact List.nodup_nil
  · intro n hn; cases hn
  · intro v hv; cases hv
  · simp only [initState, List.append_nil]
    exact List.nodup_reverse.mpr (hnodes.filter _)
  · intro n hn
    simp only [initState, List.append_nil, List.mem_reverse] at hn
    exact (List.mem_filter.mp hn).1
  · intro n _ hn; cases hn
  · intro n hn p hp
    simp only [initState, List.append_nil, List.mem_reverse] at hn
    have := (List.mem_filter.mp hn).2
    simp only [List.isEmpty_iff, decide_eq_true_eq] at this
    rw [this] at hp
    cases hp
  · intro n hn _ hp
    left
    simp only [initState, List.mem_reverse]
    apply List.mem_filter.mpr
    refine ⟨hn, ?_⟩
    simp only [List.isEmpty_iff, decide_eq_true_eq]
    apply List.eq_nil_iff_forall_not_mem.mpr
    intro p hpmem
    exact absurd (hp p hpmem) (List.not_mem_nil p)
  · intro; rfl

theorem clusterStep_nil (g : DiGraph) (i : Nat → GraphClusteringNodeInfo)
    (s : ClusterState) (hh : s.heap = []) : clusterStep g i s = s := by
  unfold clusterStep
  rw [hh]

theorem clusterStep_cons (g : DiGraph) (i : Nat → GraphClusteringNodeInfo)
    (s : ClusterState) (node : Nat) (rest : List Nat)
    (hh : s.heap = node :: rest) :
    clusterStep g i s =
      flushStage (if shouldDeferNode g i s node then deferNode s node rest
        else emitNode g i s node rest) := by
  unfold clusterStep
  rw [hh]

theorem inv_clusterStep (g : DiGraph) (i : Nat → GraphClusteringNodeInfo)
    (s : ClusterState) (hWF : g.WF) (hacyc : Acyclic g) (h : Inv g s) :
    Inv g (clusterStep g i s) := by
  obtain ⟨hpre, hemp⟩ := h
  cases hh : s.heap with
  | nil =>
    rw [clusterStep_nil g i s hh]
    exact ⟨hpre, hemp⟩
  | cons node rest =>
    rw [clusterStep_cons g i s node rest hh]
    refine ⟨?_, flushStage_heap_empty _⟩
    apply preInv_flushStage
    by_cases hd : shouldDeferNode g i s node = true
    · rw [if_pos hd]
      exact preInv_deferNode g s node rest hpre hh
    · rw [if_neg hd]
      exact preInv_emitNode g i s node rest ⟨hWF.1, hWF.2.1, hWF.2.2⟩ hacyc hpre hh

theorem inv_clusterLoop (g : DiGraph) (i : Nat → GraphClusteringNodeInfo)
    (hWF : g.WF) (hacyc : Acyclic g) :
    ∀ (fuel : Nat) (s : ClusterState), Inv g s → Inv g (clusterLoop g i fuel s) := by
  intro fuel
  induction fuel with
  | zero => intro s h; exact h
  | succ fuel ih =>
    intro s h
    unfold clusterLoop
    split
    · exact h
    · exact ih _ (inv_clusterStep g i s hWF hacyc h)

/-! ## Stage freshness and termination of the clustering loop -/

/-- A state at the start of a stage: empty colour micro-graph and no queued
standalone op.  The first node popped in such a state is always emitted. -/
def StageFresh (s : ClusterState) : Prop :=
  s.tinyGraph = [] ∧ ∀ q ∈ s.queueOpColors, q.1 = none

instance (s : ClusterState) : Decidable (StageFresh s) := by
  unfold StageFresh; infer_instance

theorem stageFresh_initState (g : DiGraph) (num_colors : Nat) :
    StageFresh (initState g num_colors) := by
  refine ⟨rfl, ?_⟩
  intro q hq
  rw [List.eq_of_mem_replicate hq]

theorem hasPath_nil (a b : GraphClusteringNodeInfo) :
    hasPath [] a b = true ↔ b = a := by
  simp [hasPath, reachClosure]

theorem getD_slot_none (l : List (Option Nat × List Nat)) (c : Nat)
    (h : ∀ q ∈ l, q.1 = none) : (l.getD c (none, [])).1 = none := by
  induction l generalizing c with
  | nil => cases c <;> rfl
  | cons q t ih =>
    cases c with
    | zero => exact h q (List.mem_cons_self _ _)
    | succ c =>
      exact ih c (fun q hq => h q (List.mem_cons_of_mem _ hq))

theorem shouldDefer_false_of_fresh (g : DiGraph)
    (i : Nat → GraphClusteringNodeInfo) (s : ClusterState) (node : Nat)
    (h : StageFresh s) : shouldDeferNode g i s node = false := by
  obtain ⟨htiny, hslots⟩ := h
  unfold shouldDeferNode
  rw [Bool.or_eq_false_iff]
  constructor
  · rw [Bool.and_eq_false_iff]
    right
    rw [getD_slot_none _ _ hslots]
    rfl
  · rw [List.any_eq_false]
    intro p _
    dsimp only
    rw [Bool.and_eq_true]
    rintro ⟨hne, hpath⟩
    rw [htiny] at hpath
    rw [decide_eq_true_eq] at hne
    exact hne ((hasPath_nil _ _).mp hpath)

theorem stageFresh_flushStage (s : ClusterState) (hh : s.heap = []) :
    StageFresh (flushStage s) := by
  unfold flushStage
  rw [hh]
  refine ⟨rfl, ?_⟩
  intro q hq
  simp only [List.isEmpty_nil, if_true, List.mem_map] at hq
  obtain ⟨q0, _, hq0⟩ := hq
  rw [← hq0]
  cases hq1 : q0.1 <;> simp [hq1]

theorem flushStage_same_of_ne (s : ClusterState) (hh : s.heap ≠ []) :
    flushStage s = s := by
  unfold flushStage
  rw [if_neg]
  simp only [List.isEmpty_iff]
  exact hh

/-- The termination measure of the loop. -/
def measureM (g : DiGraph) (s : ClusterState) : Nat :=
  (g.nodes.length - s.removed.length) * (2 * g.nodes.length + 4)
    + (if StageFresh s then 0 else g.nodes.length + 2) + s.heap.length

theorem nodup_sub_length_le (l m : List Nat) (hnd : l.Nodup)
    (hsub : ∀ x ∈ l, x ∈ m) : l.length ≤ m.length :=
  (hnd.subperm hsub).length_le

theorem inv_heap_length_le (g : DiGraph) (s : ClusterState) (h : PreInv g s) :
    s.heap.length ≤ g.nodes.length := by
  apply nodup_sub_length_le
  · exact (List.nodup_append.mp h.queue_nodup).1
  · intro x hx
    exact h.queue_sub x (List.mem_append_left _ hx)

theorem inv_removed_length_le (g : DiGraph) (s : ClusterState) (h : PreInv g s) :
    s.removed.length ≤ g.nodes.length :=
  nodup_sub_length_le _ _ h.removed_nodup h.removed_sub

theorem measure_decreases (g : DiGraph) (i : Nat → GraphClusteringNodeInfo)
    (s : ClusterState) (hWF : g.WF) (hacyc : Acyclic g) (h : Inv g s)
    (hne : s.heap ≠ []) : measureM g (clusterStep g i s) < measureM g s := by
  obtain ⟨node, rest, hh⟩ : ∃ node rest, s.heap = node :: rest := by
    cases hhh : s.heap with
    | nil => exact absurd hhh hne
    | cons a t => exact ⟨a, t, rfl⟩
  have hinv2 : Inv g (clusterStep g i s) := inv_clusterStep g i s hWF hacyc h
  have hheapBound : (clusterStep g i s).heap.length ≤ g.nodes.length :=
    inv_heap_length_le g _ hinv2.1
  by_cases hd : shouldDeferNode g i s node = true
  · have hsNotFresh : ¬ StageFresh s := by
      intro hf
      rw [shouldDefer_false_of_fresh g i s node hf] at hd
      cases hd
    have hremoved : (clusterStep g i s).removed = s.removed := by
      rw [clusterStep_cons g i s node rest hh, if_pos hd, flushStage_removed]
      rfl
    by_cases hrest : rest = []
    · have hdheap : (deferNode s node rest).heap = [] := by
        show rest = []
        exact hrest
      have hfresh : StageFresh (clusterStep g i s) := by
        rw [clusterStep_cons g i s node rest hh, if_pos hd]
        exact stageFresh_flushStage _ hdheap
      unfold measureM
      rw [hremoved, if_pos hfresh, if_neg hsNotFresh]
      have hslen : s.heap.length = rest.length + 1 := by rw [hh]; rfl
      generalize (g.nodes.length - s.removed.length) * (2 * g.nodes.length + 4) = P
      omega
    · have htEq : clusterStep g i s = deferNode s node rest := by
        rw [clusterStep_cons g i s node rest hh, if_pos hd]
        exact flushStage_same_of_ne _ hrest
      have hnotFt : ¬ StageFresh (clusterStep g i s) := by
        rw [htEq]
        exact fun hf => hsNotFresh hf
      unfold measureM
      rw [hremoved, if_neg hnotFt, if_neg hsNotFresh, htEq]
      have hslen : s.heap.length = rest.length + 1 := by rw [hh]; rfl
      have hdlen : (deferNode s node rest).heap.length = rest.length := rfl
      generalize (g.nodes.length - s.removed.length) * (2 * g.nodes.length + 4) = P
      omega
  · have hremoved : (clusterStep g i s).removed = node :: s.removed := by
      rw [clusterStep_cons g i s node rest hh, if_neg hd, flushStage_removed,
        emitNode_removed]
    have hRle : s.removed.length + 1 ≤ g.nodes.length := by
      have := inv_removed_length_le g _ hinv2.1
      rw [hremoved] at this
      simpa using this
    unfold measureM
    rw [hremoved, List.length_cons]
    have hsplit : (g.nodes.length - s.removed.length) * (2 * g.nodes.length + 4) =
        (g.nodes.length - (s.removed.length + 1)) * (2 * g.nodes.length + 4)
          + (2 * g.nodes.length + 4) := by
      have hstep2 : g.nodes.length - s.removed.length =
          (g.nodes.length - (s.removed.length + 1)) + 1 := by omega
      rw [hstep2, Nat.succ_mul]
    rw [hsplit]
    generalize (g.nodes.length - (s.removed.length + 1)) * (2 * g.nodes.length + 4) = P
    split_ifs <;> omega

theorem loop_reaches_done (g : DiGraph) (i : Nat → GraphClusteringNodeInfo)
    (hWF : g.WF) (hacyc : Acyclic g) :
    ∀ (m : Nat) (s : ClusterState), measureM g s ≤ m → Inv g s →
      ∃ fuel, (clusterLoop g i fuel s).heap = [] := by
  intro m
  induction m with
  | zero =>
    intro s hm _
    refine ⟨0, ?_⟩
    have hlen : s.heap.length ≤ measureM g s := by
      unfold measureM
      exact Nat.le_add_left _ _
    have : s.heap.length = 0 := by omega
    exact List.length_eq_zero.mp this
  | succ m ih =>
    intro s hm hinv
    by_cases hne : s.heap = []
    · exact ⟨0, hne⟩
    · have hdec := measure_decreases g i s hWF hacyc hinv hne
      obtain ⟨fuel, hf⟩ := ih (clusterStep g i s) (by omega)
        (inv_clusterStep g i s hWF hacyc hinv)
      refine ⟨fuel + 1, ?_⟩
      unfold clusterLoop
      rw [if_neg (by simp [List.isEmpty_iff, hne])]
      exact hf

/-- A finite nonempty set in which every element has a predecessor inside
the set yields a cycle. -/
theorem no_cycle_of_all_have_pred (g : DiGraph) (S : List Nat) (hSne : S ≠ [])
    (hpred : ∀ v ∈ S, ∃ u ∈ S, stepRel g u v) : ¬ Acyclic g := by
  intro hacyc
  obtain ⟨v0, hv0⟩ := List.exists_mem_of_ne_nil S hSne
  classical
  let f : Nat → Nat := fun v => if h : v ∈ S then (hpred v h).choose else v0
  have hf : ∀ v ∈ S, f v ∈ S ∧ stepRel g (f v) v := by
    intro v hv
    simp only [f, dif_pos hv]
    exact ⟨(hpred v hv).choose_spec.1, (hpred v hv).choose_spec.2⟩
  let seq : Nat → Nat := fun k => f^[k] v0
  have hseqS : ∀ k, seq k ∈ S := by
    intro k
    induction k with
    | zero => exact hv0
    | succ k ihk =>
      show f^[k + 1] v0 ∈ S
      rw [Function.iterate_succ_apply']
      exact (hf _ ihk).1
  have hedge : ∀ k, stepRel g (seq (k + 1)) (seq k) := by
    intro k
    show stepRel g (f^[k + 1] v0) (f^[k] v0)
    rw [Function.iterate_succ_apply']
    exact (hf _ (hseqS k)).2
  have hchain : ∀ d k, Relation.TransGen (stepRel g) (seq (k + d + 1)) (seq k) := by
    intro d
    induction d with
    | zero => intro k; exact Relation.TransGen.single (hedge k)
    | succ d ihd =>
      intro k
      exact Relation.TransGen.head (hedge (k + d + 1)) (ihd k)
  have hcard : S.toFinset.card < (Finset.range (S.toFinset.card + 1)).card := by
    rw [Finset.card_range]
    omega
  obtain ⟨a, _, b, _, hab, hfab⟩ :=
    Finset.exists_ne_map_eq_of_card_lt_of_maps_to hcard
      (fun k _ => List.mem_toFinset.mpr (hseqS k))
  rcases Nat.lt_or_ge a b with hlt | hge
  · obtain ⟨d, rfl⟩ : ∃ d, b = a + d + 1 := ⟨b - a - 1, by omega⟩
    have hcyc := hchain d a
    rw [hfab] at hcyc
    exact hacyc _ hcyc
  · have hgt : b < a := by omega
    obtain ⟨d, rfl⟩ : ∃ d, a = b + d + 1 := ⟨a - b - 1, by omega⟩
    have hcyc := hchain d b
    rw [hfab] at hcyc
    exact hacyc _ hcyc

/-- When the loop has drained both queues, every node of an acyclic graph
has been emitted. -/
theorem done_all_removed (g : DiGraph) (hWF : g.WF) (hacyc : Acyclic g)
    (s : ClusterState) (hinv : Inv g s) (hdone : s.heap = []) :
    ∀ n ∈ g.nodes, n ∈ s.removed := by
  by_contra hcon
  push_neg at hcon
  obtain ⟨n0, hn0, hn0r⟩ := hcon
  have hnext : s.heapNextStage = [] := hinv.2 hdone
  have hn0S : n0 ∈ g.nodes.filter (fun x => x ∉ s.removed) :=
    List.mem_filter.mpr ⟨hn0, by simpa using hn0r⟩
  have hSne : g.nodes.filter (fun x => x ∉ s.removed) ≠ [] := by
    intro hnil
    rw [hnil] at hn0S
    cases hn0S
  apply no_cycle_of_all_have_pred g (g.nodes.filter (fun x => x ∉ s.removed))
    hSne _ hacyc
  intro v hv
  obtain ⟨hvn, hvr⟩ := List.mem_filter.mp hv
  simp only [decide_eq_true_eq] at hvr
  by_cases hall : ∀ p ∈ g.inNeighbors v, p ∈ s.removed
  · rcases hinv.1.coverage v hvn hvr hall with hc | hc
    · rw [hdone] at hc; cases hc
    · rw [hnext] at hc; cases hc
  · push_neg at hall
    obtain ⟨p, hp, hpr⟩ := hall
    refine ⟨p, ?_, (mem_inNeighbors g p v).mp hp⟩
    apply List.mem_filter.mpr
    exact ⟨(hWF.2.2 _ ((mem_inNeighbors g p v).mp hp)).1, by simpa using hpr⟩

/-- Every emitted node has been stamped with a stage (layer) index. -/
def StageStamped (s : ClusterState) : Prop :=
  ∀ n, n ∈ s.removed ↔ (s.nodeStageIndexes.lookup n).isSome

theorem stageStamped_initState (g : DiGraph) (num_colors : Nat) :
    StageStamped (initState g num_colors) := by
  intro n
  simp [initState, List.lookup]

theorem flushStage_stageIdxs (s : ClusterState) :
    (flushStage s).nodeStageIndexes = s.nodeStageIndexes := by
  unfold flushStage; split <;> rfl

theorem stageStamped_clusterStep (g : DiGraph)
    (i : Nat → GraphClusteringNodeInfo) (s : ClusterState)
    (h : StageStamped s) : StageStamped (clusterStep g i s) := by
  cases hh : s.heap with
  | nil => rw [clusterStep_nil g i s hh]; exact h
  | cons node rest =>
    rw [clusterStep_cons g i s node rest hh]
    have hcore : StageStamped (if shouldDeferNode g i s node then
        deferNode s node rest else emitNode g i s node rest) := by
      split
      · exact h
      · intro n
        show n ∈ node :: s.removed ↔
          (((node, s.stageIndex) :: s.nodeStageIndexes).lookup n).isSome
        by_cases hEq : n = node
        · subst hEq
          simp [List.lookup]
        · have hbeq : (n == node) = false := by simp [hEq]
          simp only [List.mem_cons, List.lookup, hbeq, hEq, false_or]
          exact h n
    intro n
    rw [flushStage_removed, flushStage_stageIdxs]
    exact hcore n

theorem stageStamped_clusterLoop (g : DiGraph)
    (i : Nat → GraphClusteringNodeInfo) :
    ∀ (fuel : Nat) (s : ClusterState), StageStamped s →
      StageStamped (clusterLoop g i fuel s) := by
  intro fuel
  induction fuel with
  | zero => intro s h; exact h
  | succ fuel ih =>
    intro s h
    unfold clusterLoop
    split
    · exact h
    · exact ih _ (stageStamped_clusterStep g i s h)

/-- Claim C3: on every finite acyclic well-formed input graph, the
layer-peeling loop of graph_clustering terminates with both the ready heap
and the deferred queue empty, and every node of the graph emitted into some
layer (removed from the work graph and stamped with a stage index). -/
theorem graph_clustering_terminates (g : DiGraph) (num_colors : Nat)
    (get_node_info : Nat → GraphClusteringNodeInfo)
    (hWF : g.WF) (hacyc : Acyclic g) :
    ∃ fuel,
      (clusterLoop g get_node_info fuel (initState g num_colors)).heap = [] ∧
        (clusterLoop g get_node_info fuel (initState g num_colors)).heapNextStage = [] ∧
        ∀ n ∈ g.nodes,
          n ∈ (clusterLoop g get_node_info fuel (initState g num_colors)).removed ∧
            ((clusterLoop g get_node_info fuel
              (initState g num_colors)).nodeStageIndexes.lookup n).isSome := by
  obtain ⟨fuel, hdone⟩ := loop_reaches_done g get_node_info hWF hacyc
    (measureM g (initState g num_colors)) (initState g num_colors) le_rfl
    (inv_initState g num_colors hWF)
  have hinv := inv_clusterLoop g get_node_info hWF hacyc fuel _
    (inv_initState g num_colors hWF)
  have hstamp := stageStamped_clusterLoop g get_node_info fuel _
    (stageStamped_initState g num_colors)
  refine ⟨fuel, hdone, hinv.2 hdone, ?_⟩
  intro n hn
  have hrem := done_all_removed g hWF hacyc _ hinv hdone n hn
  exact ⟨hrem, (hstamp n).mp hrem⟩

/-- Witness for C3 at the concrete acyclic chain used elsewhere. -/
theorem graph_clustering_terminates_witness :
    ∃ fuel,
      (clusterLoop c1Graph c1Info fuel (initState c1Graph 1)).heap = [] ∧
        (clusterLoop c1Graph c1Info fuel (initState c1Graph 1)).heapNextStage = [] ∧
        ∀ n ∈ c1Graph.nodes,
          n ∈ (clusterLoop c1Graph c1Info fuel (initState c1Graph 1)).removed ∧
            ((clusterLoop c1Graph c1Info fuel
              (initState c1Graph 1)).nodeStageIndexes.lookup n).isSome :=
  graph_clustering_terminates c1Graph 1 c1Info (by decide)
    (acyclic_of_rank c1Graph id (by decide))

/-! ## Claim C8: cluster shape invariant -/

theorem getD_replicate_self {α : Type} (a : α) (k c : Nat) :
    (List.replicate k a).getD c a = a := by
  induction k generalizing c with
  | zero => cases c <;> rfl
  | succ k ih =>
    cases c with
    | zero => rfl
    | succ c => exact ih c

theorem getD_set_self {α : Type} (l : List α) (j : Nat) (v d : α)
    (h : j < l.length) : (l.set j v).getD j d = v := by
  induction l generalizing j with
  | nil => cases h
  | cons a t ih =>
    cases j with
    | zero => rfl
    | succ j => exact ih j (Nat.lt_of_succ_lt_succ h)

theorem getD_set_ne {α : Type} (l : List α) (j c : Nat) (v d : α)
    (h : j ≠ c) : (l.set j v).getD c d = l.getD c d := by
  induction l generalizing j c with
  | nil => rfl
  | cons a t ih =>
    cases j with
    | zero =>
      cases c with
      | zero => exact absurd rfl h
      | succ c => rfl
    | succ j =>
      cases c with
      | zero => rfl
      | succ c => exact ih j c (fun hEq => h (congrArg Nat.succ hEq))

theorem set_oob {α : Type} (l : List α) (j : Nat) (v : α)
    (h : l.length ≤ j) : l.set j v = l := by
  induction l generalizing j with
  | nil => rfl
  | cons a t ih =>
    cases j with
    | zero => cases h
    | succ j =>
      show a :: t.set j v = a :: t
      rw [ih j (Nat.le_of_succ_le_succ h)]

theorem getD_map_fix {α : Type} (f : α → α) (l : List α) (c : Nat) (d : α)
    (hd : f d = d) : (l.map f).getD c d = f (l.getD c d) := by
  induction l generalizing c with
  | nil => cases c <;> exact hd.symm
  | cons a t ih =>
    cases c with
    | zero => rfl
    | succ c => exact ih c

/-- The shape invariant of the per-colour buffers: the open command buffer
and every finished command stage of colour c hold only non-standalone
systems of colour c, and the standalone slot and finished standalone stages
of colour c hold only standalone systems of colour c; finished command
stages are non-empty. -/
structure ShapeInv (get_node_info : Nat → GraphClusteringNodeInfo)
    (s : ClusterState) : Prop where
  cmd_buf : ∀ c, ∀ n ∈ (s.cmdOpColors.getD c ([], [])).1,
    get_node_info n = ⟨c, false⟩
  cmd_stages : ∀ c, ∀ st ∈ (s.cmdOpColors.getD c ([], [])).2,
    st ≠ [] ∧ ∀ n ∈ st, get_node_info n = ⟨c, false⟩
  queue_slot : ∀ c n, (s.queueOpColors.getD c (none, [])).1 = some n →
    get_node_info n = ⟨c, true⟩
  queue_stages : ∀ c, ∀ n ∈ (s.queueOpColors.getD c (none, [])).2,
    get_node_info n = ⟨c, true⟩

theorem shapeInv_initState (g : DiGraph) (num_colors : Nat)
    (get_node_info : Nat → GraphClusteringNodeInfo) :
    ShapeInv get_node_info (initState g num_colors) := by
  refine ⟨?_, ?_, ?_, ?_⟩
  · intro c n hn
    rw [show (initState g num_colors).cmdOpColors =
      List.replicate num_colors ([], []) from rfl, getD_replicate_self] at hn
    cases hn
  · intro c st hst
    rw [show (initState g num_colors).cmdOpColors =
      List.replicate num_colors ([], []) from rfl, getD_replicate_self] at hst
    cases hst
  · intro c n hn
    rw [show (initState g num_colors).queueOpColors =
      List.replicate num_colors (none, []) from rfl, getD_replicate_self] at hn
    cases hn
  · intro c n hn
    rw [show (initState g num_colors).queueOpColors =
      List.replicate num_colors (none, []) from rfl, getD_replicate_self] at hn
    cases hn

theorem emitNode_queueOps (g : DiGraph) (i : Nat → GraphClusteringNodeInfo)
    (s : ClusterState) (node : Nat) (rest : List Nat) :
    (emitNode g i s node rest).queueOpColors =
      if (i node).is_standalone then
        s.queueOpColors.set (i node).color
          (some node, (s.queueOpColors.getD (i node).color (none, [])).2)
      else s.queueOpColors := rfl

theorem emitNode_cmdOps (g : DiGraph) (i : Nat → GraphClusteringNodeInfo)
    (s : ClusterState) (node : Nat) (rest : List Nat) :
    (emitNode g i s node rest).cmdOpColors =
      if (i node).is_standalone then s.cmdOpColors
      else
        s.cmdOpColors.set (i node).color
          ((s.cmdOpColors.getD (i node).color ([], [])).1 ++ [node],
            (s.cmdOpColors.getD (i node).color ([], [])).2) := rfl

theorem shapeInv_emitNode (g : DiGraph) (i : Nat → GraphClusteringNodeInfo)
    (s : ClusterState) (node : Nat) (rest : List Nat)
    (h : ShapeInv i s) : ShapeInv i (emitNode g i s node rest) := by
  by_cases hsa : (i node).is_standalone = true
  · refine ⟨?_, ?_, ?_, ?_⟩
    · intro c n hn
      rw [emitNode_cmdOps, if_pos hsa] at hn
      exact h.cmd_buf c n hn
    · intro c st hst
      rw [emitNode_cmdOps, if_pos hsa] at hst
      exact h.cmd_stages c st hst
    · intro c n hn
      rw [emitNode_queueOps, if_pos hsa] at hn
      by_cases hcc : (i node).color = c
      · by_cases hlen : (i node).color < s.queueOpColors.length
        · rw [hcc] at hlen
          rw [hcc, getD_set_self _ _ _ _ hlen] at hn
          have hnn : n = node := by
            injection hn with hval
            exact hval.symm
          subst hnn
          rw [← hcc]
          show i n = ⟨(i n).color, true⟩
          rw [← hsa]
        · rw [set_oob _ _ _ (Nat.le_of_not_lt (hcc ▸ hlen))] at hn
          exact h.queue_slot c n hn
      · rw [getD_set_ne _ _ _ _ _ hcc] at hn
        exact h.queue_slot c n hn
    · intro c n hn
      rw [emitNode_queueOps, if_pos hsa] at hn
      by_cases hcc : (i node).color = c
      · by_cases hlen : (i node).color < s.queueOpColors.length
        · rw [hcc] at hlen
          rw [hcc, getD_set_self _ _ _ _ hlen] at hn
          exact h.queue_stages c n hn
        · rw [set_oob _ _ _ (Nat.le_of_not_lt (hcc ▸ hlen))] at hn
          exact h.queue_stages c n hn
      · rw [getD_set_ne _ _ _ _ _ hcc] at hn
        exact h.queue_stages c n hn
  · have hsa2 : (i node).is_standalone = false := by
      cases hv : (i node).is_standalone
      · rfl
      · exact absurd hv hsa
    have hsaCond : ¬ ((i node).is_standalone = true) := by rw [hsa2]; simp
    refine ⟨?_, ?_, ?_, ?_⟩
    · intro c n hn
      rw [emitNode_cmdOps, if_neg hsaCond] at hn
      by_cases hcc : (i node).color = c
      · by_cases hlen : (i node).color < s.cmdOpColors.length
        · rw [hcc] at hlen
          rw [hcc, getD_set_self _ _ _ _ hlen] at hn
          rcases List.mem_append.mp hn with hn1 | hn1
          · exact h.cmd_buf c n hn1
          · have hnn : n = node := List.mem_singleton.mp hn1
            subst hnn
            rw [← hcc]
            show i n = ⟨(i n).color, false⟩
            rw [← hsa2]
        · rw [set_oob _ _ _ (Nat.le_of_not_lt (hcc ▸ hlen))] at hn
          exact h.cmd_buf c n hn
      · rw [getD_set_ne _ _ _ _ _ hcc] at hn
        exact h.cmd_buf c n hn
    · intro c st hst
      rw [emitNode_cmdOps, if_neg hsaCond] at hst
      by_cases hcc : (i node).color = c
      · by_cases hlen : (i node).color < s.cmdOpColors.length
        · rw [hcc] at hlen
          rw [hcc, getD_set_self _ _ _ _ hlen] at hst
          exact h.cmd_stages c st hst
        · rw [set_oob _ _ _ (Nat.le_of_not_lt (hcc ▸ hlen))] at hst
          exact h.cmd_stages c st hst
      · rw [getD_set_ne _ _ _ _ _ hcc] at hst
        exact h.cmd_stages c st hst
    · intro c n hn
      rw [emitNode_queueOps, if_neg hsaCond] at hn
      exact h.queue_slot c n hn
    · intro c n hn
      rw [emitNode_queueOps, if_neg hsaCond] at hn
      exact h.queue_stages c n hn

theorem shapeInv_flushStage (i : Nat → GraphClusteringNodeInfo)
    (s : ClusterState) (h : ShapeInv i s) : ShapeInv i (flushStage s) := by
  unfold flushStage
  split
  · refine ⟨?_, ?_, ?_, ?_⟩
    · intro c n hn
      rw [show ({ s with
          cmdOpColors := s.cmdOpColors.map (fun bs =>
            if bs.1.isEmpty then bs else ([], bs.2 ++ [bs.1])),
          queueOpColors := s.queueOpColors.map (fun qs =>
            match qs.1 with
            | some a => (none, qs.2 ++ [a])
            | none => qs),
          stageIndex := s.stageIndex + 1,
          tinyGraph := [],
          heap := s.heapNextStage,
          heapNextStage := [] } : ClusterState).cmdOpColors =
        s.cmdOpColors.map (fun bs =>
          if bs.1.isEmpty then bs else ([], bs.2 ++ [bs.1])) from rfl,
        getD_map_fix _ _ _ _ rfl] at hn
      split at hn
      · exact h.cmd_buf c n hn
      · cases hn
    · intro c st hst
      rw [show ({ s with
          cmdOpColors := s.cmdOpColors.map (fun bs =>
            if bs.1.isEmpty then bs else ([], bs.2 ++ [bs.1])),
          queueOpColors := s.queueOpColors.map (fun qs =>
            match qs.1 with
            | some a => (none, qs.2 ++ [a])
            | none => qs),
          stageIndex := s.stageIndex + 1,
          tinyGraph := [],
          heap := s.heapNextStage,
          heapNextStage := [] } : ClusterState).cmdOpColors =
        s.cmdOpColors.map (fun bs =>
          if bs.1.isEmpty then bs else ([], bs.2 ++ [bs.1])) from rfl,
        getD_map_fix _ _ _ _ rfl] at hst
      split at hst
      · exact h.cmd_stages c st hst
      · rename_i hne
        rcases List.mem_append.mp hst with hst1 | hst1
        · exact h.cmd_stages c st hst1
        · have hstEq : st = (s.cmdOpColors.getD c ([], [])).1 :=
            List.mem_singleton.mp hst1
          subst hstEq
          constructor
          · intro habs
            rw [habs] at hne
            exact hne rfl
          · exact h.cmd_buf c
    · intro c n hn
      rw [show ({ s with
          cmdOpColors := s.cmdOpColors.map (fun bs =>
            if bs.1.isEmpty then bs else ([], bs.2 ++ [bs.1])),
          queueOpColors := s.queueOpColors.map (fun qs =>
            match qs.1 with
            | some a => (none, qs.2 ++ [a])
            | none => qs),
          stageIndex := s.stageIndex + 1,
          tinyGraph := [],
          heap := s.heapNextStage,
          heapNextStage := [] } : ClusterState).queueOpColors =
        s.queueOpColors.map (fun qs =>
          match qs.1 with
          | some a => (none, qs.2 ++ [a])
          | none => qs) from rfl,
        getD_map_fix _ _ _ _ rfl] at hn
      rcases hq : (s.queueOpColors.getD c (none, [])).1 with _ | a
      · rw [hq] at hn
        exact h.queue_slot c n hn
      · rw [hq] at hn
        cases hn
    · intro c n hn
      rw [show ({ s with
          cmdOpColors := s.cmdOpColors.map (fun bs =>
            if bs.1.isEmpty then bs else ([], bs.2 ++ [bs.1])),
          queueOpColors := s.queueOpColors.map (fun qs =>
            match qs.1 with
            | some a => (none, qs.2 ++ [a])
            | none => qs),
          stageIndex := s.stageIndex + 1,
          tinyGraph := [],
          heap := s.heapNextStage,
          heapNextStage := [] } : ClusterState).queueOpColors =
        s.queueOpColors.map (fun qs =>
          match qs.1 with
          | some a => (none, qs.2 ++ [a])
          | none => qs) from rfl,
        getD_map_fix _ _ _ _ rfl] at hn
      rcases hq : (s.queueOpColors.getD c (none, [])).1 with _ | a
      · rw [hq] at hn
        exact h.queue_stages c n hn
      · rw [hq] at hn
        rcases List.mem_append.mp hn with hn1 | hn1
        · exact h.queue_stages c n hn1
        · rw [List.mem_singleton.mp hn1]
          exact h.queue_slot c a hq
  · exact h

theorem shapeInv_clusterStep (g : DiGraph)
    (i : Nat → GraphClusteringNodeInfo) (s : ClusterState)
    (h : ShapeInv i s) : ShapeInv i (clusterStep g i s) := by
  cases hh : s.heap with
  | nil => rw [clusterStep_nil g i s hh]; exact h
  | cons node rest =>
    rw [clusterStep_cons g i s node rest hh]
    apply shapeInv_flushStage
    split
    · exact ⟨h.cmd_buf, h.cmd_stages, h.queue_slot, h.queue_stages⟩
    · exact shapeInv_emitNode g i s node rest h

theorem shapeInv_clusterLoop (g : DiGraph)
    (i : Nat → GraphClusteringNodeInfo) :
    ∀ (fuel : Nat) (s : ClusterState), ShapeInv i s →
      ShapeInv i (clusterLoop g i fuel s) := by
  intro fuel
  induction fuel with
  | zero => intro s h; exact h
  | succ fuel ih =>
    intro s h
    unfold clusterLoop
    split
    · exact h
    · exact ih _ (shapeInv_clusterStep g i s h)

theorem mem_getD_of_mem {α : Type} (l : List α) (q d : α) (hq : q ∈ l) :
    ∃ c, c < l.length ∧ l.getD c d = q := by
  obtain ⟨c, hlt, hEq⟩ := List.mem_iff_getElem.mp hq
  refine ⟨c, hlt, ?_⟩
  rw [List.getD_eq_getElem l d hlt, hEq]

theorem cluster_shape_of_shapeInv (i : Nat → GraphClusteringNodeInfo)
    (s : ClusterState) (h : ShapeInv i s) :
    ∀ cl ∈ assembleClusters i s,
      cl.nodes ≠ [] ∧ (∀ n ∈ cl.nodes, i n = cl.info) ∧
        (cl.info.is_standalone = true → cl.nodes.length = 1) := by
  intro cl hcl
  unfold assembleClusters at hcl
  rcases List.mem_append.mp hcl with hq | hc
  · rw [List.mem_flatten] at hq
    obtain ⟨inner, hinner, hclin⟩ := hq
    rw [List.mem_map] at hinner
    obtain ⟨q, _, hqmk⟩ := hinner
    rw [← hqmk, List.mem_map] at hclin
    obtain ⟨a, _, hamk⟩ := hclin
    rw [← hamk]
    refine ⟨by simp, ?_, fun _ => rfl⟩
    intro n hn
    rw [List.mem_singleton.mp hn]
  · rw [List.mem_flatten] at hc
    obtain ⟨inner, hinner, hclin⟩ := hc
    rw [List.mem_map] at hinner
    obtain ⟨p, hpmem, hpmk⟩ := hinner
    rw [← hpmk, List.mem_map] at hclin
    obtain ⟨st, hstmem, hstmk⟩ := hclin
    obtain ⟨c, hclt, hgd⟩ := mem_getD_of_mem s.cmdOpColors p ([], []) hpmem
    have hstfacts : st ≠ [] ∧ ∀ n ∈ st, i n = ⟨c, false⟩ := by
      unfold cmdStages at hstmem
      split at hstmem
      · exact h.cmd_stages c st (hgd ▸ hstmem)
      · rename_i hpne
        rcases List.mem_append.mp hstmem with hst1 | hst1
        · exact h.cmd_stages c st (hgd ▸ hst1)
        · have hstEq : st = p.1 := List.mem_singleton.mp hst1
          subst hstEq
          constructor
          · intro habs
            rw [habs] at hpne
            exact hpne rfl
          · intro n hn
            exact h.cmd_buf c n (hgd ▸ hn)
    obtain ⟨hstne, hstall⟩ := hstfacts
    have hhead : st.headD 0 ∈ st := by
      cases st with
      | nil => exact absurd rfl hstne
      | cons a t => exact List.mem_cons_self _ _
    rw [← hstmk]
    refine ⟨hstne, ?_, ?_⟩
    · intro n hn
      rw [hstall n hn, hstall _ hhead]
    · intro habs
      rw [hstall _ hhead] at habs
      cases habs

/-- Claim C8: every node of the produced cluster graph is a non-empty set
of render systems all sharing the info recorded on the cluster (same colour
and same standalone flag, so no cluster mixes colours or mixes standalone
with non-standalone systems), and a standalone cluster holds exactly one
system. -/
theorem graph_clustering_cluster_shape (g : DiGraph) (num_colors fuel : Nat)
    (get_node_info : Nat → GraphClusteringNodeInfo) :
    ∀ cl ∈ (graph_clustering g num_colors get_node_info fuel).clusters,
      cl.nodes ≠ [] ∧ (∀ n ∈ cl.nodes, get_node_info n = cl.info) ∧
        (cl.info.is_standalone = true → cl.nodes.length = 1) := by
  intro cl hcl
  apply cluster_shape_of_shapeInv get_node_info
    (clusterLoop g get_node_info fuel (initState g num_colors))
    (shapeInv_clusterLoop g get_node_info fuel _
      (shapeInv_initState g num_colors get_node_info))
  simpa [graph_clustering] using hcl

/-- Witness for C8: the standalone cluster of the concrete run holds
exactly node 1. -/
theorem graph_clustering_cluster_shape_witness :
    ClusteredNode.mk ⟨0, true⟩ [1] ∈
        (graph_clustering c1Graph 1 c1Info 10).clusters ∧
      ((ClusteredNode.mk ⟨0, true⟩ [1]).nodes ≠ [] ∧
        (∀ n ∈ (ClusteredNode.mk ⟨0, true⟩ [1]).nodes,
          c1Info n = (ClusteredNode.mk ⟨0, true⟩ [1]).info) ∧
        ((ClusteredNode.mk ⟨0, true⟩ [1]).info.is_standalone = true →
          (ClusteredNode.mk ⟨0, true⟩ [1]).nodes.length = 1)) :=
  ⟨by decide,
    graph_clustering_cluster_shape c1Graph 1 10 c1Info _ (by decide)⟩

/-! ## Claim C4: transitive reduction and timeline wiring
(src/src/ecs/pass.rs 252-283)

The transitive reduction itself is computed by the external petgraph
routines dag_to_toposorted_adjacency_list and
dag_transitive_reduction_closure; it is embedded here through its
specification: the transitive reduction of a DAG keeps exactly those edges
(u, v) that admit no alternative path from u to v through an intermediate
node.  The loop over the reduction edges is embedded from the source. -/

structure PipelineStageFlags2 where
  bits : Nat
deriving DecidableEq

/-- vk::PipelineStageFlags2::ALL_COMMANDS. -/
def ALL_COMMANDS : PipelineStageFlags2 := ⟨0x10000⟩

def natExpandOnce (edges : List (Nat × Nat)) (s : List Nat) : List Nat :=
  edges.foldl (fun acc e => if e.1 ∈ acc ∧ e.2 ∉ acc then acc ++ [e.2] else acc) s

def natReachClosure (edges : List (Nat × Nat)) : Nat → List Nat → List Nat
  | 0, s => s
  | n + 1, s => natReachClosure edges n (natExpandOnce edges s)

def hasPathNat (edges : List (Nat × Nat)) (a b : Nat) : Bool :=
  b ∈ natReachClosure edges edges.length [a]

/-- Models petgraph dag_transitive_reduction_closure through its
specification on a DAG: keep an edge exactly when no path from its source
reaches its target through some other direct successor. -/
def transitive_reduction (edges : List (Nat × Nat)) : List (Nat × Nat) :=
  edges.filter (fun e =>
    ! (edges.any (fun f =>
        decide (f.1 = e.1) && decide (f.2 ≠ e.2) && hasPathNat edges f.2 e.2)))

structure TimelineDep where
  timeline : Nat
  stage_mask : PipelineStageFlags2
deriving DecidableEq

/-- The loop of RenderSystemsPass::build over the reduction edges: for each
edge add one ordering edge between the two clusters' queue nodes, and push
one timeline dependency (the source cluster's timeline with stage mask
ALL_COMMANDS) onto the destination cluster. -/
def buildQueueEdges (clusterEdges : List (Nat × Nat)) (queue_node : Nat → Nat)
    (timeline : Nat → Nat) : List (Nat × Nat) × List (Nat × TimelineDep) :=
  (transitive_reduction clusterEdges).foldl
    (fun acc e =>
      (acc.1 ++ [(queue_node e.1, queue_node e.2)],
        acc.2 ++ [(e.2, ⟨timeline e.1, ALL_COMMANDS⟩)]))
    ([], [])

theorem foldl_pair_append {α β γ : Type} (l : List α) (f : α → β)
    (g2 : α → γ) (acc1 : List β) (acc2 : List γ) :
    l.foldl (fun acc e => (acc.1 ++ [f e], acc.2 ++ [g2 e])) (acc1, acc2) =
      (acc1 ++ l.map f, acc2 ++ l.map g2) := by
  induction l generalizing acc1 acc2 with
  | nil => simp
  | cons a t ih =>
    rw [List.foldl_cons, ih]
    simp

/-- Claim C4: the ordering edges and the pushed timeline dependencies of
the build pass are exactly the images of the edges of the transitive
reduction of the cluster graph, and every pushed timeline dependency
carries the stage mask ALL_COMMANDS. -/
theorem buildQueueEdges_spec (clusterEdges : List (Nat × Nat))
    (queue_node : Nat → Nat) (timeline : Nat → Nat) :
    (buildQueueEdges clusterEdges queue_node timeline).1 =
      (transitive_reduction clusterEdges).map
        (fun e => (queue_node e.1, queue_node e.2)) ∧
      (buildQueueEdges clusterEdges queue_node timeline).2 =
        (transitive_reduction clusterEdges).map
          (fun e => (e.2, ⟨timeline e.1, ALL_COMMANDS⟩)) ∧
      ∀ d ∈ (buildQueueEdges clusterEdges queue_node timeline).2,
        d.2.stage_mask = ALL_COMMANDS := by
  have hfold := foldl_pair_append (transitive_reduction clusterEdges)
    (fun e => (queue_node e.1, queue_node e.2))
    (fun e => ((e.2 : Nat), (⟨timeline e.1, ALL_COMMANDS⟩ : TimelineDep)))
    [] []
  refine ⟨?_, ?_, ?_⟩
  · rw [buildQueueEdges, hfold]
    simp
  · rw [buildQueueEdges, hfold]
    simp
  · intro d hd
    rw [buildQueueEdges, hfold] at hd
    simp only [List.nil_append, List.mem_map] at hd
    obtain ⟨e, _, he⟩ := hd
    rw [← he]

/-- Witness for C4 on a concrete triangle whose transitive edge (0, 2) is
reduced away. -/
theorem buildQueueEdges_spec_witness :
    (buildQueueEdges [(0, 1), (1, 2), (0, 2)] id id).1 =
      (transitive_reduction [(0, 1), (1, 2), (0, 2)]).map
        (fun e => (id e.1, id e.2)) ∧
      (buildQueueEdges [(0, 1), (1, 2), (0, 2)] id id).2 =
        (transitive_reduction [(0, 1), (1, 2), (0, 2)]).map
          (fun e => (e.2, ⟨id e.1, ALL_COMMANDS⟩)) ∧
      ∀ d ∈ (buildQueueEdges [(0, 1), (1, 2), (0, 2)] id id).2,
        d.2.stage_mask = ALL_COMMANDS :=
  buildQueueEdges_spec [(0, 1), (1, 2), (0, 2)] id id

/-! ## GPU future recording (src/src/future/exec.rs 51-93)

GPUFutureContext, its has_barriers and clear_barriers methods, and the
CommandBuffer and CommandPool fields live in repository files that are not
part of the staged sources; they are modelled from the spec below.  The
record loop itself is embedded from src/src/future/exec.rs. -/

/-- Modelled from the spec: an image memory barrier registered by a future
into the pending barrier set (its contents are opaque to the loop). -/
structure ImageMemoryBarrier where
  id : Nat
deriving DecidableEq

/-- Modelled from the spec: the aggregate memory barrier, a union of
(stage, access) masks. -/
structure MemoryBarrier2 where
  src_stage_mask : Nat
  src_access_mask : Nat
  dst_stage_mask : Nat
  dst_access_mask : Nat
deriving DecidableEq

def MemoryBarrier2.empty : MemoryBarrier2 := ⟨0, 0, 0, 0⟩

def MemoryBarrier2.union (a b : MemoryBarrier2) : MemoryBarrier2 :=
  ⟨a.src_stage_mask ||| b.src_stage_mask,
    a.src_access_mask ||| b.src_access_mask,
    a.dst_stage_mask ||| b.dst_stage_mask,
    a.dst_access_mask ||| b.dst_access_mask⟩

/-- Modelled from the spec: the pending barrier set of a GPUFutureContext,
a list of image transitions and one aggregate memory barrier. -/
structure GPUFutureContext where
  image_barrier : List ImageMemoryBarrier
  memory_barrier : MemoryBarrier2
deriving DecidableEq

/-- Modelled from the spec: has_barriers is true exactly when the pending
set is non-empty (an image barrier is pending or the aggregate memory
barrier is non-trivial). -/
def GPUFutureContext.has_barriers (ctx : GPUFutureContext) : Bool :=
  !ctx.image_barrier.isEmpty || decide (ctx.memory_barrier ≠ MemoryBarrier2.empty)

/-- Modelled from the spec: clear_barriers resets the pending set. -/
def GPUFutureContext.clear_barriers (_ctx : GPUFutureContext) : GPUFutureContext :=
  { image_barrier := [], memory_barrier := MemoryBarrier2.empty }

/-- The barriers one poll registers into the context before yielding
Pending. -/
structure PendingStep where
  images : List ImageMemoryBarrier
  memory : MemoryBarrier2
deriving DecidableEq

/-- Modelled from the spec: registering barriers unions them into the
pending set. -/
def applyStep (ctx : GPUFutureContext) (st : PendingStep) : GPUFutureContext :=
  { image_barrier := ctx.image_barrier ++ st.images,
    memory_barrier := ctx.memory_barrier.union st.memory }

/-- A GPU future block as the record loop observes it: finitely many
Pending yields, then Ready with the output and the retained values. -/
structure GPUFutureBlock (R Rt : Type) where
  steps : List PendingStep
  output : R
  retained : Rt

/-- One cmd_pipeline_barrier2 call with the DependencyInfo it carries. -/
structure BarrierCall where
  image_memory_barriers : List ImageMemoryBarrier
  memory_barriers : List MemoryBarrier2
deriving DecidableEq

/-- One Pending arm of the record loop (exec.rs 68-83): after the poll has
registered its barriers, if the context has barriers record exactly one
cmd_pipeline_barrier2 carrying all pending image barriers and the single
aggregate memory barrier; then clear the pending set. -/
def recordPendingStep (ctx : GPUFutureContext) (st : PendingStep) :
    List BarrierCall × GPUFutureContext :=
  let ctx1 := applyStep ctx st
  if ctx1.has_barriers then
    ([⟨ctx1.image_barrier, [ctx1.memory_barrier]⟩], ctx1.clear_barriers)
  else
    ([], ctx1.clear_barriers)

/-- The record drive loop over the future's Pending yields. -/
def recordLoop (ctx : GPUFutureContext) :
    List PendingStep → List BarrierCall × GPUFutureContext
  | [] => ([], ctx)
  | st :: rest =>
    let out := recordPendingStep ctx st
    let out2 := recordLoop out.2 rest
    (out.1 ++ out2.1, out2.2)

structure CommandPool where
  raw : Nat
  generation : Nat
deriving DecidableEq

/-- Modelled from the spec: the CommandBuffer fields read by record (owning
pool handle, pool generation, the pending-barrier context and the signal
value). -/
structure CommandBuffer where
  pool : Nat
  generation : Nat
  future_ctx : GPUFutureContext
  raw : Nat
  signal_value : Nat
deriving DecidableEq

inductive RecordPanic
  | poolMismatch
  | generationMismatch
deriving DecidableEq

structure GPUFutureSubmissionStatus (R Rt : Type) where
  return_value : R
  retained_values : Rt
  wait_value : Nat

/-- CommandPool::record: the two assert_eq pairing checks (a panic is
embedded as an error), then the drive loop, then the submission status
carrying the output, the retained values and the signal value. -/
def CommandPool.record {R Rt : Type} (pool : CommandPool)
    (command_buffer : CommandBuffer) (future : GPUFutureBlock R Rt) :
    Except RecordPanic (List BarrierCall × GPUFutureSubmissionStatus R Rt) :=
  if command_buffer.pool ≠ pool.raw then .error .poolMismatch
  else if command_buffer.generation ≠ pool.generation then
    .error .generationMismatch
  else
    .ok ((recordLoop command_buffer.future_ctx future.steps).1,
      ⟨future.output, future.retained, command_buffer.signal_value⟩)

/-- Claim C5: in the record drive loop, each Pending poll causes at most
one cmd_pipeline_barrier2 call; an emitted call carries all pending image
barriers together with the single aggregate memory barrier and happens only
when the pending set is non-empty; and the pending set is cleared before
the next poll (the loop continues from the cleared context). -/
theorem record_drains_barriers (ctx : GPUFutureContext) (st : PendingStep)
    (steps : List PendingStep) :
    (recordPendingStep ctx st).1.length ≤ 1 ∧
      (∀ call ∈ (recordPendingStep ctx st).1,
        call.image_memory_barriers = (applyStep ctx st).image_barrier ∧
          call.memory_barriers = [(applyStep ctx st).memory_barrier] ∧
          (applyStep ctx st).has_barriers = true) ∧
      (recordPendingStep ctx st).2 = (applyStep ctx st).clear_barriers ∧
      recordLoop ctx (st :: steps) =
        ((recordPendingStep ctx st).1 ++
            (recordLoop ((applyStep ctx st).clear_barriers) steps).1,
          (recordLoop ((applyStep ctx st).clear_barriers) steps).2) := by
  refine ⟨?_, ?_, ?_, ?_⟩
  · dsimp only [recordPendingStep]
    split <;> simp
  · intro call hcall
    dsimp only [recordPendingStep] at hcall
    split at hcall
    · rename_i hbar
      rw [List.mem_singleton.mp hcall]
      exact ⟨rfl, rfl, hbar⟩
    · cases hcall
  · dsimp only [recordPendingStep]
    split <;> rfl
  · have hctx : (recordPendingStep ctx st).2 = (applyStep ctx st).clear_barriers := by
      dsimp only [recordPendingStep]
      split <;> rfl
    show ((recordPendingStep ctx st).1 ++
        (recordLoop (recordPendingStep ctx st).2 steps).1,
        (recordLoop (recordPendingStep ctx st).2 steps).2) = _
    rw [hctx]

/-- Witness for C5 at a one-step future with one image barrier pending. -/
theorem record_drains_barriers_witness :
    (recordPendingStep ⟨[], MemoryBarrier2.empty⟩ ⟨[⟨7⟩], MemoryBarrier2.empty⟩).1.length ≤ 1 ∧
      (∀ call ∈ (recordPendingStep ⟨[], MemoryBarrier2.empty⟩
          ⟨[⟨7⟩], MemoryBarrier2.empty⟩).1,
        call.image_memory_barriers =
            (applyStep ⟨[], MemoryBarrier2.empty⟩ ⟨[⟨7⟩], MemoryBarrier2.empty⟩).image_barrier ∧
          call.memory_barriers =
            [(applyStep ⟨[], MemoryBarrier2.empty⟩ ⟨[⟨7⟩], MemoryBarrier2.empty⟩).memory_barrier] ∧
          (applyStep ⟨[], MemoryBarrier2.empty⟩ ⟨[⟨7⟩], MemoryBarrier2.empty⟩).has_barriers = true) ∧
      (recordPendingStep ⟨[], MemoryBarrier2.empty⟩ ⟨[⟨7⟩], MemoryBarrier2.empty⟩).2 =
        (applyStep ⟨[], MemoryBarrier2.empty⟩ ⟨[⟨7⟩], MemoryBarrier2.empty⟩).clear_barriers ∧
      recordLoop ⟨[], MemoryBarrier2.empty⟩
          (⟨[⟨7⟩], MemoryBarrier2.empty⟩ :: []) =
        ((recordPendingStep ⟨[], MemoryBarrier2.empty⟩ ⟨[⟨7⟩], MemoryBarrier2.empty⟩).1 ++
            (recordLoop ((applyStep ⟨[], MemoryBarrier2.empty⟩
              ⟨[⟨7⟩], MemoryBarrier2.empty⟩).clear_barriers) []).1,
          (recordLoop ((applyStep ⟨[], MemoryBarrier2.empty⟩
            ⟨[⟨7⟩], MemoryBarrier2.empty⟩).clear_barriers) []).2) :=
  record_drains_barriers ⟨[], MemoryBarrier2.empty⟩ ⟨[⟨7⟩], MemoryBarrier2.empty⟩ []

/-- Claim C9: CommandPool::record detects a mismatched (pool, buffer)
pairing: recording fails (panics) exactly when the buffer's stored pool
handle differs from the pool's raw handle or the buffer's generation
differs from the pool's generation; when both agree, the checks pass and
recording proceeds to the drive loop. -/
theorem record_pool_pairing {R Rt : Type} (pool : CommandPool)
    (cb : CommandBuffer) (future : GPUFutureBlock R Rt) :
    ((∃ e, CommandPool.record pool cb future = .error e) ↔
        (cb.pool ≠ pool.raw ∨ cb.generation ≠ pool.generation)) ∧
      (cb.pool = pool.raw → cb.generation = pool.generation →
        CommandPool.record pool cb future =
          .ok ((recordLoop cb.future_ctx future.steps).1,
            ⟨future.output, future.retained, cb.signal_value⟩)) := by
  constructor
  · unfold CommandPool.record
    split
    · rename_i hp
      exact ⟨fun _ => Or.inl hp, fun _ => ⟨.poolMismatch, rfl⟩⟩
    · rename_i hp
      split
      · rename_i hg
        exact ⟨fun _ => Or.inr hg, fun _ => ⟨.generationMismatch, rfl⟩⟩
      · rename_i hg
        constructor
        · rintro ⟨e, he⟩
          cases he
        · intro hmm
          rcases hmm with hmm | hmm
          · exact absurd hmm hp
          · exact absurd hmm hg
  · intro h1 h2
    unfold CommandPool.record
    rw [if_neg (by simpa using h1), if_neg (by simpa using h2)]

/-- Witness for C9: with matching handles and generations, record returns
the loop output. -/
theorem record_pool_pairing_witness :
    (((∃ e, CommandPool.record ⟨5, 3⟩
          ⟨5, 3, ⟨[], MemoryBarrier2.empty⟩, 9, 4⟩
          (⟨[], (), ()⟩ : GPUFutureBlock Unit Unit) = .error e) ↔
        ((5 : Nat) ≠ 5 ∨ (3 : Nat) ≠ 3)) ∧
      ((5 : Nat) = 5 → (3 : Nat) = 3 →
        CommandPool.record ⟨5, 3⟩ ⟨5, 3, ⟨[], MemoryBarrier2.empty⟩, 9, 4⟩
            (⟨[], (), ()⟩ : GPUFutureBlock Unit Unit) =
          .ok ((recordLoop ⟨[], MemoryBarrier2.empty⟩ []).1, ⟨(), (), 4⟩))) :=
  record_pool_pairing ⟨5, 3⟩ ⟨5, 3, ⟨[], MemoryBarrier2.empty⟩, 9, 4⟩
    (⟨[], (), ()⟩ : GPUFutureBlock Unit Unit)

/-! ## CopyBufferFuture (src/core/src/resources/buffer.rs 32-100) -/

structure BufferCopy where
  src_offset : Nat
  dst_offset : Nat
  size : Nat
deriving DecidableEq

/-- The BufferLike data CopyBufferFuture::record reads. -/
structure BufferDesc where
  raw_buffer : Nat
  offset : Nat
  size : Nat
deriving DecidableEq

inductive RecordedCommand
  | cmd_copy_buffer (src dst : Nat) (regions : List BufferCopy)
deriving DecidableEq

structure CopyBufferFuture where
  src : BufferDesc
  dst : BufferDesc
  regions : Option (List BufferCopy)
deriving DecidableEq

/-- CopyBufferFuture::record: Some of an empty region list returns Ready
without recording; otherwise one cmd_copy_buffer is recorded with either
the caller regions or the single whole-size region, and the future is
Ready. -/
def CopyBufferFuture.record (f : CopyBufferFuture) : List RecordedCommand :=
  if f.regions.isSome ∧ (f.regions.getD []).isEmpty then []
  else
    let entire_region : List BufferCopy :=
      [⟨f.src.offset, f.dst.offset, min f.src.size f.dst.size⟩]
    [RecordedCommand.cmd_copy_buffer f.src.raw_buffer f.dst.raw_buffer
      (match f.regions with
        | some regions => regions
        | none => entire_region)]

/-- Claim C7: regions = Some [] records nothing; regions = None records
exactly one cmd_copy_buffer with a single whole-size region (src offset,
dst offset, min of the sizes); regions = Some rs with rs non-empty records
exactly one cmd_copy_buffer with the caller regions. -/
theorem copy_buffer_record_cases (src dst : BufferDesc) :
    (CopyBufferFuture.mk src dst (some [])).record = [] ∧
      (CopyBufferFuture.mk src dst none).record =
        [RecordedCommand.cmd_copy_buffer src.raw_buffer dst.raw_buffer
          [⟨src.offset, dst.offset, min src.size dst.size⟩]] ∧
      ∀ rs : List BufferCopy, rs ≠ [] →
        (CopyBufferFuture.mk src dst (some rs)).record =
          [RecordedCommand.cmd_copy_buffer src.raw_buffer dst.raw_buffer rs] := by
  refine ⟨rfl, ?_, ?_⟩
  · unfold CopyBufferFuture.record
    rw [if_neg]
    simp
  · intro rs hrs
    unfold CopyBufferFuture.record
    rw [if_neg]
    simp [hrs]

/-- Witness for C7 at a concrete non-empty region list. -/
theorem copy_buffer_record_cases_witness :
    ((CopyBufferFuture.mk ⟨1, 0, 8⟩ ⟨2, 0, 16⟩ (some [])).record = [] ∧
      (CopyBufferFuture.mk ⟨1, 0, 8⟩ ⟨2, 0, 16⟩ none).record =
        [RecordedCommand.cmd_copy_buffer 1 2 [⟨0, 0, min 8 16⟩]] ∧
      ∀ rs : List BufferCopy, rs ≠ [] →
        (CopyBufferFuture.mk ⟨1, 0, 8⟩ ⟨2, 0, 16⟩ (some rs)).record =
          [RecordedCommand.cmd_copy_buffer 1 2 rs]) :=
  copy_buffer_record_cases ⟨1, 0, 8⟩ ⟨2, 0, 16⟩

/-! ## Buffer factory (src/core/src/resources/buffer.rs 210-592) -/

inductive PhysicalDeviceMemoryModel
  | UMA
  | Bar
  | ResizableBar
  | Discrete
deriving DecidableEq

/-- vk::BufferUsageFlags::TRANSFER_SRC. -/
def TRANSFER_SRC : Nat := 1
/-- vk::BufferUsageFlags::TRANSFER_DST. -/
def TRANSFER_DST : Nat := 2

/-- A created buffer as its callers observe it: usage bits, whether the
allocation is mapped (host visible: contents_mut returns Some exactly when
mapped), and whether it prefers device-local memory. -/
structure ResidentBuffer where
  size : Nat
  usage : Nat
  mapped : Bool
  prefer_device : Bool
deriving DecidableEq

/-- create_upload_buffer_uninit: mapped host-visible device-preferred on
UMA, Bar and ResizableBar; unmapped device-local with TRANSFER_DST added on
Discrete. -/
def create_upload_buffer_uninit (model : PhysicalDeviceMemoryModel)
    (size : Nat) (usage : Nat) : ResidentBuffer :=
  match model with
  | .UMA | .Bar | .ResizableBar => ⟨size, usage, true, true⟩
  | .Discrete => ⟨size, usage ||| TRANSFER_DST, false, true⟩

/-- create_dynamic_asset_buffer_uninit: mapped host-visible only on UMA and
ResizableBar; unmapped with TRANSFER_DST added on Discrete and Bar. -/
def create_dynamic_asset_buffer_uninit (model : PhysicalDeviceMemoryModel)
    (size : Nat) (usage : Nat) : ResidentBuffer :=
  match model with
  | .UMA | .ResizableBar => ⟨size, usage, true, true⟩
  | .Discrete | .Bar => ⟨size, usage ||| TRANSFER_DST, false, true⟩

/-- create_staging_buffer: host-visible sequential-write TRANSFER_SRC. -/
def create_staging_buffer (size : Nat) : ResidentBuffer :=
  ⟨size, TRANSFER_SRC, true, false⟩

/-- The observable outcome of the _with_writer and _with_data helpers: the
destination buffer and the optional staging buffer (written by the host,
copied into the destination by the returned future and retained). -/
structure CreatedDeviceBuffer where
  dst_buffer : ResidentBuffer
  staging_buffer : Option ResidentBuffer
deriving DecidableEq

/-- create_dynamic_asset_buffer_with_writer: the body routes through
create_upload_buffer_uninit; when the destination is mapped the writer runs
on it directly and no staging buffer exists, otherwise a staging buffer is
written, copied and retained. -/
def create_dynamic_asset_buffer_with_writer (model : PhysicalDeviceMemoryModel)
    (size : Nat) (usage : Nat) : CreatedDeviceBuffer :=
  let dst_buffer := create_upload_buffer_uninit model size usage
  if dst_buffer.mapped then ⟨dst_buffer, none⟩
  else ⟨dst_buffer, some (create_staging_buffer size)⟩

/-- create_dynamic_asset_buffer_with_data: identical body over the data
length. -/
def create_dynamic_asset_buffer_with_data (model : PhysicalDeviceMemoryModel)
    (data_len : Nat) (usage : Nat) : CreatedDeviceBuffer :=
  create_dynamic_asset_buffer_with_writer model data_len usage

/-- Claim C6 evaluated on the Bar memory model: the destination buffer the
code creates is mapped (host visible), its usage is unchanged (TRANSFER_DST
is not added) and no staging buffer is created, for both _with_writer and
_with_data; the asset-specific helper create_dynamic_asset_buffer_uninit,
which the doc comments describe, would instead produce an unmapped buffer
with TRANSFER_DST added on Bar. -/
theorem dynamic_asset_buffer_bar_divergence (size usage : Nat) :
    (create_dynamic_asset_buffer_with_writer .Bar size usage).dst_buffer.mapped = true ∧
      (create_dynamic_asset_buffer_with_writer .Bar size usage).dst_buffer.usage = usage ∧
      (create_dynamic_asset_buffer_with_writer .Bar size usage).staging_buffer = none ∧
      (create_dynamic_asset_buffer_with_data .Bar size usage).dst_buffer.mapped = true ∧
      (create_dynamic_asset_buffer_with_data .Bar size usage).staging_buffer = none ∧
      (create_dynamic_asset_buffer_uninit .Bar size usage).mapped = false ∧
      (create_dynamic_asset_buffer_uninit .Bar size usage).usage =
        (usage ||| TRANSFER_DST) :=
  ⟨rfl, rfl, rfl, rfl, rfl, rfl, rfl⟩

end AsyncAsh
